import Mathlib

/-!
# EDN value types: tag decoding and character-literal encoding

A shallow embedding of `types.go` (package `edn`).

* Bytes are natural numbers (a Go `byte` is one below 256); byte slices and Go
  strings are lists of bytes.
* A `rune` is an `Int` (Go's `int32`); negative and out-of-range values are
  kept, since `encodeRune` accepts any `rune`.
* The lexer, `isWhitespace`, `Unmarshal` and `Marshal` live in other files of
  the package and are taken as parameters.
* The standard-library routines the file calls (`bufio.Reader.ReadRune`,
  `bytes.Buffer.WriteRune`, `strconv.QuoteRuneToASCII`) are transcribed from the
  Go standard library.
-/

namespace Edn

/-- The bytes of an ASCII string literal (one byte per character). -/
def ascii (s : String) : List Nat := s.toList.map Char.toNat

/-! ## Errors -/

/-- Go `error` values that can leave `Tag.UnmarshalEDN`: `io.EOF` (the only
error `ReadRune` gives on an in-memory buffer), the package variable
`errUnexpected`, and any other error value (recorded by the lexer or returned
by the generic decoder), identified by its message. -/
inductive GoError where
  | ioEOF
  | errUnexpected
  | other (msg : String)
  deriving DecidableEq, Repr

/-! ## UTF-8 (package `unicode/utf8`) -/

/-- The constant `utf8.RuneError` (U+FFFD). -/
def RuneError : Int := 0xFFFD

/-- The constant `utf8.MaxRune`. -/
def MaxRune : Int := 0x10FFFF

/-- The function `utf8.ValidRune`: in range and not a surrogate half. -/
def ValidRune (r : Int) : Bool :=
  if 0 ≤ r ∧ r < 0xD800 then true
  else if 0xDFFF < r ∧ r ≤ MaxRune then true
  else false

/-- Entry of the table `utf8.first` for a lead byte: the sequence length and the
accepted range of the second byte; `none` for ASCII and for invalid lead
bytes (the entries `as` and `xx`). -/
def first (p0 : Nat) : Option (Nat × Nat × Nat) :=
  if p0 < 0xC2 then none
  else if p0 ≤ 0xDF then some (2, 0x80, 0xBF)
  else if p0 = 0xE0 then some (3, 0xA0, 0xBF)
  else if p0 ≤ 0xEC then some (3, 0x80, 0xBF)
  else if p0 = 0xED then some (3, 0x80, 0x9F)
  else if p0 ≤ 0xEF then some (3, 0x80, 0xBF)
  else if p0 = 0xF0 then some (4, 0x90, 0xBF)
  else if p0 ≤ 0xF3 then some (4, 0x80, 0xBF)
  else if p0 = 0xF4 then some (4, 0x80, 0x8F)
  else none

/-- The function `utf8.DecodeRune`: the first code point of `p` and its width in
bytes. Masks are written as remainders (`& 0x3F` is `% 64`), shifts as
products, and the disjoint bit fields are added. -/
def DecodeRune (p : List Nat) : Int × Nat :=
  match p with
  | [] => (RuneError, 0)
  | p0 :: t =>
    if p0 < 0x80 then ((p0 : Int), 1)
    else
      match first p0 with
      | none => (RuneError, 1)
      | some (sz, lo, hi) =>
        if p.length < sz then (RuneError, 1)
        else
          match t with
          | [] => (RuneError, 1)
          | b1 :: t1 =>
            if b1 < lo ∨ hi < b1 then (RuneError, 1)
            else if sz ≤ 2 then (((p0 % 32 * 64 + b1 % 64 : Nat) : Int), 2)
            else
              match t1 with
              | [] => (RuneError, 1)
              | b2 :: t2 =>
                if b2 < 0x80 ∨ 0xBF < b2 then (RuneError, 1)
                else if sz ≤ 3 then
                  (((p0 % 16 * 4096 + b1 % 64 * 64 + b2 % 64 : Nat) : Int), 3)
                else
                  match t2 with
                  | [] => (RuneError, 1)
                  | b3 :: _ =>
                    if b3 < 0x80 ∨ 0xBF < b3 then (RuneError, 1)
                    else
                      (((p0 % 8 * 262144 + b1 % 64 * 4096 + b2 % 64 * 64 + b3 % 64 : Nat) : Int), 4)

/-- The method `bufio.Reader.ReadRune` on a reader over an in-memory buffer whose
unread content is `buf`: at the end of input the error `io.EOF`, otherwise the
next code point, its width, and the content left unread. -/
def ReadRune (buf : List Nat) : Except GoError (Int × Nat × List Nat) :=
  match buf with
  | [] => .error .ioEOF
  | _ :: _ =>
    let (r, size) := DecodeRune buf
    .ok (r, size, buf.drop size)

/-- The function `utf8.AppendRune`: `p` followed by the encoding of `r`; a rune
that is negative, too large or a surrogate half is written as `RuneError`.
`uint32(r)` is `r % 2^32`. -/
def AppendRune (p : List Nat) (r : Int) : List Nat :=
  let i : Nat := (r % 4294967296).toNat
  if i ≤ 0x7F then p ++ [i]
  else if i ≤ 0x7FF then p ++ [0xC0 + i / 64, 0x80 + i % 64]
  else if i > 0x10FFFF ∨ (0xD800 ≤ i ∧ i ≤ 0xDFFF) then p ++ [0xEF, 0xBF, 0xBD]
  else if i ≤ 0xFFFF then p ++ [0xE0 + i / 4096, 0x80 + i / 64 % 64, 0x80 + i % 64]
  else p ++ [0xF0 + i / 262144, 0x80 + i / 4096 % 64, 0x80 + i / 64 % 64, 0x80 + i % 64]

/-- The method `bytes.Buffer.WriteRune`. -/
def WriteRune (buf : List Nat) (r : Int) : List Nat :=
  if (r % 4294967296).toNat < 0x80 then buf ++ [(r % 4294967296).toNat % 256]
  else AppendRune buf r

/-! ## Slicing -/

/-- The slice expression `bs[lo:hi]` on a slice whose capacity is its length;
`none` is the run-time panic "slice bounds out of range". -/
def slice (bs : List Nat) (lo hi : Nat) : Option (List Nat) :=
  if lo ≤ hi ∧ hi ≤ bs.length then some ((bs.take hi).drop lo) else none

/-- The slice expression `bs[lo:]`. -/
def sliceFrom (bs : List Nat) (lo : Nat) : Option (List Nat) :=
  if lo ≤ bs.length then some (bs.drop lo) else none

/-! ## The lexer (external) -/

/-- Modelled from the spec: the type `lexState` is declared in the lexer's file,
which is not part of `types.go`; these are the five outcomes the switch in
`Tag.UnmarshalEDN` names. -/
inductive lexState where
  | lexCont
  | lexIgnore
  | lexEnd
  | lexEndPrev
  | lexError
  deriving DecidableEq, Repr

open lexState

/-- The lexer as `Tag.UnmarshalEDN` uses it: the state after `lex.reset()` on a
zero value, the method `lex.state(r)` (which updates the lexer and returns a
`lexState`), and the field `lex.err` (an `error`, possibly nil). -/
structure Lexer (σ : Type) where
  reset : σ
  state : σ → Int → lexState × σ
  err : σ → Option GoError

/-! ## Tag -/

/-- The struct `Tag`; `V` stands for `interface{}`. -/
structure Tag (V : Type) where
  Tagname : List Nat
  Value : V

/-- How the `tag:` loop of `Tag.UnmarshalEDN` is left. -/
inductive LoopExit where
  | failed (err : Option GoError)
  | stopped (start endTag : Nat)
  | unfinished
  deriving DecidableEq, Repr

/-- Exit of the loop together with the runes handed to `lex.state`, in order. -/
structure Scan where
  exit : LoopExit
  classified : List Int
  deriving DecidableEq, Repr

/-- Record one more call of `lex.state` in front of a scan. -/
def Scan.after (r : Int) (s : Scan) : Scan := ⟨s.exit, r :: s.classified⟩

/-- The loop labelled `tag:` in `Tag.UnmarshalEDN`, started with lexer state
`lex`, unread reader content `buf` and offsets `start`, `endTag`. The first
argument bounds the number of iterations. -/
def scanLoop {σ : Type} (L : Lexer σ) : Nat → σ → List Nat → Nat → Nat → Scan
  | 0, _, _, _, _ => ⟨.unfinished, []⟩
  | fuel + 1, lex, buf, start, endTag =>
    match ReadRune buf with
    | .error err => ⟨.failed (some err), []⟩
    | .ok (r, rlen, buf1) =>
      let (ls, lex1) := L.state lex r
      Scan.after r <|
        match ls with
        | lexIgnore => scanLoop L fuel lex1 buf1 (start + rlen) (endTag + rlen)
        | lexError => ⟨.failed (L.err lex1), []⟩
        | lexEndPrev => ⟨.stopped start endTag, []⟩
        | lexEnd => ⟨.failed (some .errUnexpected), []⟩
        | lexCont => scanLoop L fuel lex1 buf1 start (endTag + rlen)

/-- The scan of a whole buffer: fresh lexer, both offsets 0. Every iteration
that does not leave the loop consumes at least one byte, so `bs.length + 1`
iterations are enough. -/
def scan {σ : Type} (L : Lexer σ) (bs : List Nat) : Scan :=
  scanLoop L (bs.length + 1) L.reset bs 0 0

/-- What a call of `Tag.UnmarshalEDN` does to its caller: it returns with the
receiver in state `t` and the error `err` (nil is `none`), or it panics. -/
inductive Result (V : Type) where
  | returned (t : Tag V) (err : Option GoError)
  | panicked
  | unfinished

/-- A call of `Tag.UnmarshalEDN`: its result, the runes it handed to
`lex.state`, and the byte slices it handed to `Unmarshal`. -/
structure Run (V : Type) where
  result : Result V
  classified : List Int
  decoderCalls : List (List Nat)

/-- The method `Tag.UnmarshalEDN`. `Unmarshal bs v` is the generic decoder called
with the bytes `bs` and a pointer to a value currently holding `v`; it gives
the value afterwards and the error. -/
def UnmarshalEDN {σ V : Type} (L : Lexer σ) (Unmarshal : List Nat → V → V × Option GoError)
    (t : Tag V) (bs : List Nat) : Run V :=
  let sc := scan L bs
  match sc.exit with
  | .unfinished => ⟨.unfinished, sc.classified, []⟩
  | .failed err => ⟨.returned t err, sc.classified, []⟩
  | .stopped start endTag =>
    match slice bs (start + 1) endTag with
    | none => ⟨.panicked, sc.classified, []⟩
    | some name =>
      match sliceFrom bs endTag with
      | none => ⟨.panicked, sc.classified, []⟩
      | some payload =>
        let (v, err) := Unmarshal payload t.Value
        ⟨.returned ⟨name, v⟩ err, sc.classified, [payload]⟩

/-! ## The sequence of code points of a buffer and their classification -/

/-- One iteration of the loop that reaches `lex.state`: the rune read, its width
`rlen`, the bytes it was read from, the `lexState` returned and the lexer
afterwards. -/
structure Step (σ : Type) where
  r : Int
  rlen : Nat
  raw : List Nat
  ls : lexState
  lex : σ

/-- The code points of `buf`, read one after the other with `ReadRune` and each
handed to `lex.state`, starting with the lexer in state `lex`; the scan of
`Tag.UnmarshalEDN` follows this sequence up to the first entry at which it
leaves the loop. -/
def traceFrom {σ : Type} (L : Lexer σ) : Nat → σ → List Nat → List (Step σ)
  | 0, _, _ => []
  | fuel + 1, lex, buf =>
    match ReadRune buf with
    | .error _ => []
    | .ok (r, rlen, buf1) =>
      let (ls, lex1) := L.state lex r
      ⟨r, rlen, buf.take rlen, ls, lex1⟩ :: traceFrom L fuel lex1 buf1

/-- All code points of the buffer with a fresh lexer. -/
def trace {σ : Type} (L : Lexer σ) (bs : List Nat) : List (Step σ) :=
  traceFrom L bs.length L.reset bs

/-- Sum of the byte lengths of the code points of `steps`. -/
def width {σ : Type} (steps : List (Step σ)) : Nat := (steps.map Step.rlen).sum

/-- Sum of the byte lengths of the code points of `steps` classified `lexIgnore`. -/
def ignoredWidth {σ : Type} (steps : List (Step σ)) : Nat :=
  width (steps.filter fun x => x.ls = lexIgnore)

/-- The runes of `steps`, in order. -/
def runes {σ : Type} (steps : List (Step σ)) : List Int := steps.map Step.r

/-- The bytes of the code points of `steps`, in order. -/
def rawBytes {σ : Type} (steps : List (Step σ)) : List Nat := (steps.map Step.raw).flatten

/-- The lexer after the last of `steps`, `lex` when there is none. -/
def lexAfter {σ : Type} (lex : σ) (steps : List (Step σ)) : σ :=
  steps.foldl (fun _ x => x.lex) lex

/-! ## Sample lexers and decoders -/

/-- A stateless sample lexer that reaches every branch of the loop: a space ends
the name, a comma is ignored, `!` is an error, `;` is an unexpected end, every
other rune continues the name. It stands for no particular reader. -/
def sampleLexer : Lexer Unit where
  reset := ()
  state := fun _ r =>
    if r = 0x20 then (lexEndPrev, ())
    else if r = 0x2C then (lexIgnore, ())
    else if r = 0x21 then (lexError, ())
    else if r = 0x3B then (lexEnd, ())
    else (lexCont, ())
  err := fun _ => some (.other "illegal rune")

/-- A sample decoder for natural numbers: skips leading spaces and reads decimal
digits up to the end of the input; anything else is an error that leaves the
value untouched. -/
def sampleDecode (bs : List Nat) (v : Nat) : Nat × Option GoError :=
  let ds := bs.dropWhile (· = 0x20)
  if ds ≠ [] ∧ ds.all (fun b => 0x30 ≤ b ∧ b ≤ 0x39) then
    (ds.foldl (fun n b => 10 * n + (b - 0x30)) 0, none)
  else (v, some (.other "invalid number"))


/-! ## Character literals -/

/-- The digit `"0123456789abcdef"[i]` (the table `lowerhex` of `strconv`). -/
def lowerhex (i : Nat) : Nat := if i < 10 then 0x30 + i else 0x57 + i

/-- The `n` hexadecimal digits of `v`, most significant first: the loop
`for s := 4*(n-1); s >= 0; s -= 4 { lowerhex[v>>uint(s)&0xF] }`. -/
def hexDigits (n : Nat) (v : Int) : List Nat :=
  (List.range n).reverse.map fun k => lowerhex ((v / 16 ^ k % 16).toNat)

/-- What `strconv.appendEscapedRune` appends for `r` when `QuoteRuneToASCII` calls
it (quote `'`, `ASCIIonly` set, `graphicOnly` not set). With `ASCIIonly` the test
`r < utf8.RuneSelf && IsPrint(r)` is `0x20 ≤ r ≤ 0x7E`. `byte(r)` is `r % 256`. -/
def escapedRune (r : Int) : List Nat :=
  if r = 0x27 ∨ r = 0x5C then [0x5C, (r % 256).toNat]
  else if r < 0x80 ∧ 0x20 ≤ r ∧ r ≤ 0x7E then [(r % 256).toNat]
  else if r = 0x07 then ascii "\\a"
  else if r = 0x08 then ascii "\\b"
  else if r = 0x0C then ascii "\\f"
  else if r = 0x0A then ascii "\\n"
  else if r = 0x0D then ascii "\\r"
  else if r = 0x09 then ascii "\\t"
  else if r = 0x0B then ascii "\\v"
  else if r < 0x20 ∨ r = 0x7F then
    ascii "\\x" ++ [lowerhex ((r % 256).toNat / 16), lowerhex ((r % 256).toNat % 16)]
  else if !ValidRune r then ascii "\\u" ++ hexDigits 4 0xFFFD
  else if r < 0x10000 then ascii "\\u" ++ hexDigits 4 r
  else ascii "\\U" ++ hexDigits 8 r

/-- The function `strconv.appendEscapedRune`: every branch appends to `buf`. -/
def appendEscapedRune (buf : List Nat) (r : Int) : List Nat := buf ++ escapedRune r

/-- The function `strconv.QuoteRuneToASCII`: a single-quoted Go character literal
for `r` in ASCII; an invalid rune is quoted as `utf8.RuneError`. -/
def QuoteRuneToASCII (r : Int) : List Nat :=
  let buf : List Nat := [0x27]
  let r1 := if !ValidRune r then RuneError else r
  let buf := appendEscapedRune buf r1
  buf ++ [0x27]

/-- The function `encodeRune`, with the package's `isWhitespace` as a parameter:
the content of `buf` afterwards; `none` is a run-time panic of the slice
expression `val[1 : len(val)-1]`. -/
def encodeRune (isWhitespace : Int → Bool) (buf : List Nat) (r : Int) : Option (List Nat) :=
  if !isWhitespace r then
    let buf := buf ++ [0x5C]
    some (WriteRune buf r)
  else if r = 0x08 then some (buf ++ ascii "\\backspace")
  else if r = 0x0C then some (buf ++ ascii "\\formfeed")
  else if r = 0x0A then some (buf ++ ascii "\\newline")
  else if r = 0x0D then some (buf ++ ascii "\\return")
  else if r = 0x09 then some (buf ++ ascii "\\tab")
  else if r = 0x20 then some (buf ++ ascii "\\space")
  else
    let val := QuoteRuneToASCII r
    match slice val 1 (val.length - 1) with
    | none => none
    | some s => some (buf ++ s)

/-- The method `Rune.MarshalEDN`: the bytes and the error returned (always nil);
`none` is a panic inside `encodeRune`. -/
def Rune.MarshalEDN (isWhitespace : Int → Bool) (r : Int) : Option (List Nat × Option GoError) :=
  match encodeRune isWhitespace [] r with
  | none => none
  | some buf => some (buf, none)

/-! ## Reference definitions used to state the properties -/

/-- The UTF-8 encoding of a Unicode scalar value, by the standard's table: one
byte below U+0080, two below U+0800, three below U+10000, four above. -/
def utf8Encoding (c : Nat) : List Nat :=
  if c < 0x80 then [c]
  else if c < 0x800 then [0xC0 + c / 64, 0x80 + c % 64]
  else if c < 0x10000 then [0xE0 + c / 4096, 0x80 + c / 64 % 64, 0x80 + c % 64]
  else [0xF0 + c / 262144, 0x80 + c / 4096 % 64, 0x80 + c / 64 % 64, 0x80 + c % 64]

/-- The named escapes of the six whitespace controls. -/
def namedEscape (r : Int) : Option (List Nat) :=
  if r = 0x08 then some (ascii "\\backspace")
  else if r = 0x0C then some (ascii "\\formfeed")
  else if r = 0x0A then some (ascii "\\newline")
  else if r = 0x0D then some (ascii "\\return")
  else if r = 0x09 then some (ascii "\\tab")
  else if r = 0x20 then some (ascii "\\space")
  else none

/-- Modelled from the spec: the error kind `UnexpectedEndOfTag` ("unexpected end
of tag"); `types.go` declares no error of its own. -/
def UnexpectedEndOfTag : GoError := .other "unexpected end of tag"

/-- A sample `isWhitespace`: the six controls, the comma and U+2003 (em space). -/
def sampleWhitespace (r : Int) : Bool :=
  r = 0x08 ∨ r = 0x0C ∨ r = 0x0A ∨ r = 0x0D ∨ r = 0x09 ∨ r = 0x20 ∨ r = 0x2C ∨ r = 0x2003

/-- An `isWhitespace` that accepts nothing. -/
def noWhitespace (_ : Int) : Bool := false

/-- The trace entry of a one-byte code point under a stateless lexer. -/
def asciiStep (b : Nat) (ls : lexState) : Step Unit := ⟨(b : Int), 1, [b], ls, ()⟩

/-! ## Keyword, Symbol and the encoding of Tag -/

/-- The method `Keyword.String`: `fmt.Sprintf(":%s", string(k))`; the verb `%s`
copies a string operand as it is. -/
def Keyword.String (k : List Nat) : List Nat := ascii ":" ++ k

/-- The method `Keyword.MarshalEDN`: the bytes and the error returned. -/
def Keyword.MarshalEDN (k : List Nat) : List Nat × Option GoError := (Keyword.String k, none)

/-- The method `Symbol.String`. -/
def Symbol.String (s : List Nat) : List Nat := s

/-- The method `Symbol.MarshalEDN`. -/
def Symbol.MarshalEDN (s : List Nat) : List Nat × Option GoError := (s, none)

/-- The method `Tag.MarshalEDN`, with the package's generic encoder `Marshal` as a
parameter. A byte slice that may be nil is an `Option`, with `none` for nil;
`append(str, b...)` with a nil `b` is `str`. -/
def Tag.MarshalEDN {V : Type} (Marshal : V → Option (List Nat) × Option GoError) (t : Tag V) :
    Option (List Nat) × Option GoError :=
  let str := ascii "#" ++ t.Tagname ++ ascii " "
  let (b, err) := Marshal t.Value
  match err with
  | some e => (none, some e)
  | none => (some (str ++ b.getD []), none)

/-! ## Text forms of the containers -/

/-- The function `strings.Join`: nothing for no element, the element itself for
one, otherwise the first element and then, for each further one, the
separator and the element. -/
def Join (elems : List (List Nat)) (sep : List Nat) : List Nat :=
  match elems with
  | [] => []
  | [e] => e
  | e :: rest => rest.foldl (fun b s => b ++ sep ++ s) e

/-- The method `Vector.String`; `Sprint` is `fmt.Sprint` on one operand. -/
def Vector.String {V : Type} (Sprint : V → List Nat) (v : List V) : List Nat :=
  let vals := v.foldl (fun vals val => vals ++ [Sprint val]) []
  ascii "[" ++ Join vals (ascii " ") ++ ascii "]"

/-- The method `List.String`. -/
def List.String {V : Type} (Sprint : V → List Nat) (l : List V) : List Nat :=
  let vals := l.foldl (fun vals val => vals ++ [Sprint val]) []
  ascii "(" ++ Join vals (ascii " ") ++ ascii ")"

/-- The method `Set.String`. A `Set` is a `map[interface{}]bool`; `visit` is the
sequence of its entries as the `range` statement delivers them. The boolean of
an entry is not looked at. -/
def Set.String {V : Type} (Sprint : V → List Nat) (visit : List (V × Bool)) : List Nat :=
  let keys := visit.foldl (fun keys kv => keys ++ [Sprint kv.1]) []
  ascii "#\x7b" ++ Join keys (ascii " ") ++ ascii "\x7d"

/-- The method `Map.String`; `visit` is the sequence of the entries of the map as
the `range` statement delivers them, and `fmtS x` is what the verb `%s` writes
for the operand `x`, so that `fmt.Sprintf("%s %s", k, v)` is `fmtS k`, a space,
`fmtS v`. -/
def Map.String {V : Type} (fmtS : V → List Nat) (visit : List (V × V)) : List Nat :=
  let kvs := visit.foldl (fun kvs kv => kvs ++ [fmtS kv.1 ++ ascii " " ++ fmtS kv.2]) []
  ascii "\x7b" ++ Join kvs (ascii ", ") ++ ascii "\x7d"

/-- A sample `fmt.Sprint` for natural numbers: the decimal digits. -/
def sampleSprint (n : Nat) : List Nat := ascii (Nat.repr n)

/-- A sample generic encoder for natural numbers: the decimal digits; numbers
from 1000 on are refused with an error and nil bytes. -/
def sampleMarshal (n : Nat) : Option (List Nat) × Option GoError :=
  if n < 1000 then (some (ascii (Nat.repr n)), none) else (none, some (.other "too large"))

/-! ## A sample lexer with states, and the order of the classifications -/

/-- The states of `readerLexer`. -/
inductive readerState where
  | begin
  | pound
  | token
  | failed
  deriving DecidableEq, Repr

/-- Whitespace for `readerLexer`: space, comma, tab, line feed, carriage return. -/
def readerSpace (r : Int) : Bool :=
  r = 0x20 ∨ r = 0x2C ∨ r = 0x09 ∨ r = 0x0A ∨ r = 0x0D

/-- A sample lexer with states, in the manner of an EDN reader: leading whitespace
is ignored; `#` and any other first rune continue; whitespace right after `#`
is an error, which the lexer records; `_` or `{` right after `#` end the token
at once; after a token rune whitespace ends the previous token and any other
rune continues. -/
def readerLexer : Lexer readerState where
  reset := .begin
  state := fun s r =>
    match s with
    | .begin =>
      if readerSpace r then (lexIgnore, .begin)
      else if r = 0x23 then (lexCont, .pound)
      else (lexCont, .token)
    | .pound =>
      if readerSpace r then (lexError, .failed)
      else if r = 0x5F ∨ r = 0x7B then (lexEnd, .pound)
      else (lexCont, .token)
    | .token =>
      if readerSpace r then (lexEndPrev, .token)
      else (lexCont, .token)
    | .failed => (lexError, .failed)
  err := fun s =>
    match s with
    | .failed => some (.other "syntax error")
    | _ => none

/-- Classifications of the shape: `lexIgnore` ones, then `lexCont` ones. -/
def afterSigil : List lexState → Bool
  | [] => true
  | lexIgnore :: rest => afterSigil rest
  | lexCont :: rest => rest.all fun c => decide (c = lexCont)
  | _ :: _ => false

/-- Modelled from the spec: the classifier is not part of `types.go`; the spec
describes its `Ignore` outcome as "structural noise preceding the name". The
classifications of the code points in front of the `lexEndPrev` one are of that
kind when they are `lexIgnore` ones and one `lexCont` (the sigil), in any
order, followed by the `lexCont` ones of the name. -/
def ignoresPrecedeName : List lexState → Bool
  | lexIgnore :: rest => ignoresPrecedeName rest
  | lexCont :: rest => afterSigil rest
  | _ => false

/-! ## Reading code points -/

theorem DecodeRune_size (p : List Nat) (hp : p ≠ []) :
    1 ≤ (DecodeRune p).2 ∧ (DecodeRune p).2 ≤ p.length := by
  unfold DecodeRune
  repeat' split
  all_goals simp_all

theorem ReadRune_ok {buf rest : List Nat} {r : Int} {n : Nat}
    (h : ReadRune buf = .ok (r, n, rest)) :
    1 ≤ n ∧ n ≤ buf.length ∧ rest = buf.drop n ∧ DecodeRune buf = (r, n) := by
  cases buf with
  | nil => simp [ReadRune] at h
  | cons b t =>
    have hs := DecodeRune_size (b :: t) (by simp)
    simp only [ReadRune] at h
    injection h with h
    simp only [Prod.mk.injEq] at h
    obtain ⟨h1, h2, h3⟩ := h
    subst h1 h2
    exact ⟨hs.1, hs.2, h3.symm, rfl⟩

theorem ReadRune_error {buf : List Nat} {e : GoError} (h : ReadRune buf = .error e) :
    buf = [] ∧ e = .ioEOF := by
  cases buf with
  | nil => simp [ReadRune] at h; exact ⟨rfl, h.symm⟩
  | cons b t => simp [ReadRune] at h

/-! ## The trace and the loop -/

theorem traceFrom_cons {σ : Type} {L : Lexer σ} {f : Nat} {lex : σ} {buf : List Nat}
    {x : Step σ} {rest : List (Step σ)} (h : traceFrom L f lex buf = x :: rest) :
    ∃ f0, f = f0 + 1 ∧ ReadRune buf = .ok (x.r, x.rlen, buf.drop x.rlen) ∧
      L.state lex x.r = (x.ls, x.lex) ∧ x.raw = buf.take x.rlen ∧
      1 ≤ x.rlen ∧ x.rlen ≤ buf.length ∧
      rest = traceFrom L f0 x.lex (buf.drop x.rlen) := by
  cases f with
  | zero => simp [traceFrom] at h
  | succ f0 =>
    refine ⟨f0, rfl, ?_⟩
    unfold traceFrom at h
    cases hR : ReadRune buf with
    | error e => rw [hR] at h; simp at h
    | ok v =>
      obtain ⟨r, n, b1⟩ := v
      rw [hR] at h
      obtain ⟨h1, h2, h3, -⟩ := ReadRune_ok hR
      simp only [List.cons.injEq] at h
      obtain ⟨hx, hrest⟩ := h
      subst hx
      subst h3
      exact ⟨rfl, rfl, rfl, h1, h2, hrest.symm⟩

theorem traceFrom_nil {σ : Type} {L : Lexer σ} {f : Nat} {lex : σ} {buf : List Nat}
    (h : traceFrom L f lex buf = []) (hf : buf.length ≤ f) : buf = [] := by
  cases f with
  | zero => exact List.length_eq_zero.mp (Nat.le_zero.mp hf)
  | succ f0 =>
    unfold traceFrom at h
    cases hR : ReadRune buf with
    | error e => exact (ReadRune_error hR).1
    | ok v => rw [hR] at h; simp at h

/-- Along a prefix of the trace made of `lexCont` and `lexIgnore` code points the
loop keeps running: it reaches the state described by the prefix. -/
theorem scanLoop_along {σ : Type} (L : Lexer σ) :
    ∀ (pre rest : List (Step σ)) (f k : Nat) (lex : σ) (buf : List Nat) (start endTag : Nat),
      traceFrom L f lex buf = pre ++ rest →
      (∀ x ∈ pre, x.ls = lexCont ∨ x.ls = lexIgnore) →
      scanLoop L (pre.length + k) lex buf start endTag =
          ⟨(scanLoop L k (lexAfter lex pre) (buf.drop (width pre))
              (start + ignoredWidth pre) (endTag + width pre)).exit,
            runes pre ++ (scanLoop L k (lexAfter lex pre) (buf.drop (width pre))
              (start + ignoredWidth pre) (endTag + width pre)).classified⟩ ∧
        traceFrom L (f - pre.length) (lexAfter lex pre) (buf.drop (width pre)) = rest ∧
        pre.length ≤ f ∧ pre.length ≤ width pre ∧ width pre ≤ buf.length ∧
        rawBytes pre = buf.take (width pre) := by
  intro pre
  induction pre with
  | nil =>
    intro rest f k lex buf start endTag h _
    simp [width, ignoredWidth, runes, rawBytes, lexAfter, h]
  | cons x pre ih =>
    intro rest f k lex buf start endTag h hpre
    obtain ⟨f0, hf, hR, hS, hraw, h1, h2, hrest⟩ := traceFrom_cons h
    subst hf
    have hx := hpre x (List.mem_cons_self _ _)
    obtain ⟨ihS, ihT, ihF, ihW, ihL, ihB⟩ :=
      ih rest f0 k x.lex (buf.drop x.rlen)
        (if x.ls = lexIgnore then start + x.rlen else start) (endTag + x.rlen) hrest.symm
        (fun y hy => hpre y (List.mem_cons_of_mem _ hy))
    have hw : width (x :: pre) = x.rlen + width pre := by simp [width]
    have hl : lexAfter lex (x :: pre) = lexAfter x.lex pre := by simp [lexAfter]
    have hlen : (x :: pre).length + k = (pre.length + k) + 1 := by simp; omega
    refine ⟨?_, ?_, ?_, ?_, ?_, ?_⟩
    · rw [hlen, scanLoop, hR]
      simp only [hS]
      rcases hx with hc | hi
      · simp only [hc]
        have hig : ignoredWidth (x :: pre) = ignoredWidth pre := by
          simp [ignoredWidth, hc]
        simp only [hc, if_false, reduceCtorEq] at ihS
        rw [ihS, hw, hl, hig]
        simp [Scan.after, runes, Nat.add_assoc]
      · simp only [hi]
        have hig : ignoredWidth (x :: pre) = x.rlen + ignoredWidth pre := by
          simp [ignoredWidth, hi, width]
        simp only [hi, if_true] at ihS
        rw [ihS, hw, hl, hig]
        simp [Scan.after, runes, Nat.add_assoc]
    · rw [hw, hl]
      simpa [List.drop_drop] using ihT
    · simp; omega
    · rw [hw]; simp; omega
    · rw [hw]; simp at ihL; omega
    · rw [hw]
      simp only [rawBytes, List.map_cons, List.flatten_cons] at ihB ⊢
      rw [ihB, hraw, List.take_add]

theorem traceFrom_rlen_pos {σ : Type} (L : Lexer σ) :
    ∀ (f : Nat) (lex : σ) (buf : List Nat), ∀ x ∈ traceFrom L f lex buf, 1 ≤ x.rlen := by
  intro f
  induction f with
  | zero => intro lex buf x hx; simp [traceFrom] at hx
  | succ f0 ih =>
    intro lex buf x hx
    cases hT : traceFrom L (f0 + 1) lex buf with
    | nil => rw [hT] at hx; simp at hx
    | cons y rest =>
      obtain ⟨f1, hf, -, -, -, h1, -, hrest⟩ := traceFrom_cons hT
      have hf1 : f1 = f0 := by omega
      subst hf1
      rw [hT] at hx
      rcases List.mem_cons.mp hx with rfl | hmem
      · exact h1
      · exact ih _ _ x (hrest ▸ hmem)

theorem ignoredWidth_le {σ : Type} (steps : List (Step σ)) :
    ignoredWidth steps ≤ width steps := by
  induction steps with
  | nil => simp [ignoredWidth, width]
  | cons x xs ih =>
    simp only [ignoredWidth, width] at ih ⊢
    by_cases hx : x.ls = lexIgnore <;> simp [List.filter_cons, hx] <;> omega

theorem ignoredWidth_lt {σ : Type} (steps : List (Step σ))
    (hpos : ∀ x ∈ steps, 1 ≤ x.rlen) (hcont : ∃ x ∈ steps, x.ls = lexCont) :
    ignoredWidth steps + 1 ≤ width steps := by
  induction steps with
  | nil => obtain ⟨x, hx, -⟩ := hcont; simp at hx
  | cons x xs ih =>
    have hle := ignoredWidth_le xs
    have hx1 := hpos x (List.mem_cons_self _ _)
    simp only [ignoredWidth, width] at ih hle ⊢
    by_cases hx : x.ls = lexCont
    · simp [List.filter_cons, hx]; omega
    · obtain ⟨y, hy, hyc⟩ := hcont
      rcases List.mem_cons.mp hy with rfl | hmem
      · exact absurd hyc hx
      · have := ih (fun z hz => hpos z (List.mem_cons_of_mem _ hz)) ⟨y, hmem, hyc⟩
        by_cases hi : x.ls = lexIgnore <;> simp [List.filter_cons, hi] <;> omega

/-- Facts about the code point that follows a prefix of the trace of a buffer. -/
theorem trace_next {σ : Type} {L : Lexer σ} {bs : List Nat} {pre post : List (Step σ)}
    {st : Step σ} (h : trace L bs = pre ++ st :: post)
    (hpre : ∀ x ∈ pre, x.ls = lexCont ∨ x.ls = lexIgnore) :
    ReadRune (bs.drop (width pre)) = .ok (st.r, st.rlen, (bs.drop (width pre)).drop st.rlen) ∧
      L.state (lexAfter L.reset pre) st.r = (st.ls, st.lex) ∧
      st.raw = (bs.drop (width pre)).take st.rlen ∧
      width pre + st.rlen ≤ bs.length ∧ pre.length + 1 ≤ bs.length ∧
      rawBytes pre = bs.take (width pre) ∧ (∀ x ∈ pre, 1 ≤ x.rlen) := by
  obtain ⟨-, hT, hF, hW, hL, hB⟩ := scanLoop_along L pre (st :: post) bs.length 0 L.reset bs 0 0 h hpre
  obtain ⟨f0, hf, hR, hS, hraw, h1, h2, -⟩ := traceFrom_cons hT
  refine ⟨hR, hS, hraw, ?_, ?_, hB, ?_⟩
  · simp at h2; omega
  · omega
  · intro x hx
    exact traceFrom_rlen_pos L bs.length L.reset bs x (by
      show x ∈ trace L bs
      rw [h]; exact List.mem_append_left _ hx)

/-- The scan up to the first code point that is neither `lexCont` nor `lexIgnore`:
the loop is at that code point with the offsets given by the prefix. -/
theorem scan_reach {σ : Type} {L : Lexer σ} {bs : List Nat} {pre post : List (Step σ)}
    {st : Step σ} (h : trace L bs = pre ++ st :: post)
    (hpre : ∀ x ∈ pre, x.ls = lexCont ∨ x.ls = lexIgnore)
    (hst : st.ls ≠ lexCont ∧ st.ls ≠ lexIgnore) :
    scan L bs = ⟨match st.ls with
        | lexEndPrev => .stopped (ignoredWidth pre) (width pre)
        | lexError => .failed (L.err st.lex)
        | _ => .failed (some .errUnexpected), runes pre ++ [st.r]⟩ := by
  obtain ⟨hR, hS, -, -, hlen, -, -⟩ := trace_next h hpre
  obtain ⟨k, hk⟩ : ∃ k, bs.length + 1 = pre.length + (k + 1) := ⟨bs.length - pre.length, by omega⟩
  obtain ⟨hscan, -⟩ := scanLoop_along L pre (st :: post) bs.length (k + 1) L.reset bs 0 0 h hpre
  unfold scan
  rw [hk, hscan, scanLoop, hR]
  simp only [hS, Nat.zero_add]
  cases hls : st.ls <;> simp_all [Scan.after]

/-- The scan of a buffer all of whose code points are `lexCont` or `lexIgnore`
ends with the reader's `io.EOF`. -/
theorem scan_eof {σ : Type} {L : Lexer σ} {bs : List Nat}
    (hall : ∀ x ∈ trace L bs, x.ls = lexCont ∨ x.ls = lexIgnore) :
    scan L bs = ⟨.failed (some .ioEOF), runes (trace L bs)⟩ := by
  obtain ⟨-, hT, hF, hW, hL, -⟩ :=
    scanLoop_along L (trace L bs) [] bs.length 0 L.reset bs 0 0 (by simp [trace]) hall
  have hnil := traceFrom_nil hT (by simp; omega)
  obtain ⟨k, hk⟩ : ∃ k, bs.length + 1 = (trace L bs).length + (k + 1) :=
    ⟨bs.length - (trace L bs).length, by omega⟩
  obtain ⟨hscan, -⟩ :=
    scanLoop_along L (trace L bs) [] bs.length (k + 1) L.reset bs 0 0 (by simp [trace]) hall
  unfold scan
  rw [hk, hscan, scanLoop, hnil]
  simp [ReadRune]

theorem traceFrom_raw_length {σ : Type} (L : Lexer σ) :
    ∀ (f : Nat) (lex : σ) (buf : List Nat), ∀ x ∈ traceFrom L f lex buf,
      x.raw.length = x.rlen := by
  intro f
  induction f with
  | zero => intro lex buf x hx; simp [traceFrom] at hx
  | succ f0 ih =>
    intro lex buf x hx
    cases hT : traceFrom L (f0 + 1) lex buf with
    | nil => rw [hT] at hx; simp at hx
    | cons y rest =>
      obtain ⟨f1, hf, -, -, hraw, -, h2, hrest⟩ := traceFrom_cons hT
      have hf1 : f1 = f0 := by omega
      subst hf1
      rw [hT] at hx
      rcases List.mem_cons.mp hx with rfl | hmem
      · rw [hraw, List.length_take]; omega
      · exact ih _ _ x (hrest ▸ hmem)

theorem rawBytes_length {σ : Type} (steps : List (Step σ))
    (h : ∀ x ∈ steps, x.raw.length = x.rlen) : (rawBytes steps).length = width steps := by
  induction steps with
  | nil => simp [rawBytes, width]
  | cons x xs ih =>
    have hx := h x (List.mem_cons_self _ _)
    have := ih (fun y hy => h y (List.mem_cons_of_mem _ hy))
    simp only [rawBytes, width, List.map_cons, List.flatten_cons, List.length_append,
      List.sum_cons] at this ⊢
    omega

/-- The call on a buffer whose scan stops at a `lexEndPrev` code point after at
least one `lexCont` code point: the name is `bs[start+1 : endTag]` and the
decoder gets `bs[endTag:]`. -/
theorem UnmarshalEDN_stop {σ V : Type} (L : Lexer σ)
    (Unmarshal : List Nat → V → V × Option GoError) (t : Tag V) {bs : List Nat}
    {pre post : List (Step σ)} {st : Step σ} (h : trace L bs = pre ++ st :: post)
    (hpre : ∀ x ∈ pre, x.ls = lexCont ∨ x.ls = lexIgnore)
    (hcont : ∃ x ∈ pre, x.ls = lexCont) (hst : st.ls = lexEndPrev) :
    UnmarshalEDN L Unmarshal t bs =
      ⟨.returned ⟨(bs.take (width pre)).drop (ignoredWidth pre + 1),
          (Unmarshal (bs.drop (width pre)) t.Value).1⟩
          (Unmarshal (bs.drop (width pre)) t.Value).2,
        runes pre ++ [st.r], [bs.drop (width pre)]⟩ := by
  obtain ⟨-, -, -, hlen, -, -, hpos⟩ := trace_next h hpre
  have hlt := ignoredWidth_lt pre hpos hcont
  have hsc := scan_reach h hpre (by simp [hst])
  simp only [hst] at hsc
  have h1 : ignoredWidth pre + 1 ≤ width pre ∧ width pre ≤ bs.length := ⟨hlt, by omega⟩
  have h2 : width pre ≤ bs.length := h1.2
  simp [UnmarshalEDN, hsc, slice, sliceFrom, h1, h2]

/-- The loop always leaves through a `return` or the `break`: with more
iterations allowed than bytes unread it is never cut short. -/
theorem scanLoop_finishes {σ : Type} (L : Lexer σ) :
    ∀ (f : Nat) (lex : σ) (buf : List Nat) (start endTag : Nat), buf.length < f →
      (scanLoop L f lex buf start endTag).exit ≠ .unfinished := by
  intro f
  induction f with
  | zero => intro lex buf start endTag h; omega
  | succ f0 ih =>
    intro lex buf start endTag h
    unfold scanLoop
    cases hR : ReadRune buf with
    | error e => simp
    | ok v =>
      obtain ⟨r, n, buf1⟩ := v
      obtain ⟨h1, h2, h3, -⟩ := ReadRune_ok hR
      have hlen : buf1.length < f0 := by
        rw [h3, List.length_drop]; omega
      simp only [Scan.after]
      cases hL : (L.state lex r).1 with
      | lexCont => exact ih _ _ _ _ hlen
      | lexIgnore => exact ih _ _ _ _ hlen
      | lexEnd => simp
      | lexEndPrev => simp
      | lexError => simp

/-- The scan of a buffer is never cut short. -/
theorem scan_finishes {σ : Type} (L : Lexer σ) (bs : List Nat) :
    (scan L bs).exit ≠ .unfinished :=
  scanLoop_finishes L (bs.length + 1) L.reset bs 0 0 (Nat.lt_succ_self _)

/-- The trace covers the buffer: the bytes of its code points are the buffer. -/
theorem traceFrom_rawBytes {σ : Type} (L : Lexer σ) :
    ∀ (f : Nat) (lex : σ) (buf : List Nat), buf.length ≤ f →
      rawBytes (traceFrom L f lex buf) = buf := by
  intro f
  induction f with
  | zero =>
    intro lex buf h
    have : buf = [] := List.length_eq_zero.mp (Nat.le_zero.mp h)
    simp [traceFrom, rawBytes, this]
  | succ f0 ih =>
    intro lex buf h
    cases hT : traceFrom L (f0 + 1) lex buf with
    | nil => simp [rawBytes, traceFrom_nil hT h]
    | cons x rest =>
      obtain ⟨f1, hf, -, -, hraw, h1, h2, hrest⟩ := traceFrom_cons hT
      have hf1 : f1 = f0 := by omega
      subst hf1
      have hi := ih x.lex (buf.drop x.rlen) (by rw [List.length_drop]; omega)
      rw [← hrest] at hi
      simp only [rawBytes, List.map_cons, List.flatten_cons] at hi ⊢
      rw [hi, hraw, List.take_append_drop]

/-- The code points of the trace of a buffer make up the whole buffer. -/
theorem trace_rawBytes {σ : Type} (L : Lexer σ) (bs : List Nat) :
    rawBytes (trace L bs) = bs :=
  traceFrom_rawBytes L bs.length L.reset bs (Nat.le_refl _)

/-- The first entry of the trace of a buffer that starts with an ASCII byte. -/
theorem traceFrom_ascii {σ : Type} {L : Lexer σ} {f : Nat} {lex : σ} {b : Nat}
    {buf : List Nat} {x : Step σ} {rest : List (Step σ)}
    (h : traceFrom L f lex (b :: buf) = x :: rest) (hb : b < 0x80) :
    x.r = (b : Int) ∧ x.rlen = 1 ∧ traceFrom L (f - 1) x.lex buf = rest := by
  obtain ⟨f0, hf, hR, -, -, -, -, hrest⟩ := traceFrom_cons h
  have hD : DecodeRune (b :: buf) = ((b : Int), 1) := by simp [DecodeRune, hb]
  have hD2 := (ReadRune_ok hR).2.2.2
  rw [hD] at hD2
  simp only [Prod.mk.injEq] at hD2
  obtain ⟨h1, h2⟩ := hD2
  subst hf
  refine ⟨h1.symm, h2.symm, ?_⟩
  rw [hrest, ← h2]
  simp

/-! ## Tag.UnmarshalEDN -/

/-- C1: when the scan reaches a code point classified `lexEndPrev` after at least
one `lexCont` code point, the loop stops with `start` the summed widths of the
`lexIgnore` code points and `endTag` the summed widths of all code points read
before; the name becomes `bs[start+1 : endTag]`, the decoder is called once, on
`bs[endTag:]`; the bytes before `endTag` are those of the code points read
before, and the `lexEndPrev` code point is the first one of the payload slice. -/
theorem UnmarshalEDN_endPrev {σ V : Type} (L : Lexer σ)
    (Unmarshal : List Nat → V → V × Option GoError) (t : Tag V) (bs : List Nat)
    (pre post : List (Step σ)) (st : Step σ) (htrace : trace L bs = pre ++ st :: post)
    (hpre : ∀ x ∈ pre, x.ls = lexCont ∨ x.ls = lexIgnore)
    (hcont : ∃ x ∈ pre, x.ls = lexCont) (hst : st.ls = lexEndPrev) :
    scan L bs = ⟨.stopped (ignoredWidth pre) (width pre), runes pre ++ [st.r]⟩ ∧
      slice bs (ignoredWidth pre + 1) (width pre) =
        some ((bs.take (width pre)).drop (ignoredWidth pre + 1)) ∧
      sliceFrom bs (width pre) = some (bs.drop (width pre)) ∧
      UnmarshalEDN L Unmarshal t bs =
        ⟨.returned ⟨(bs.take (width pre)).drop (ignoredWidth pre + 1),
            (Unmarshal (bs.drop (width pre)) t.Value).1⟩
            (Unmarshal (bs.drop (width pre)) t.Value).2,
          runes pre ++ [st.r], [bs.drop (width pre)]⟩ ∧
      bs.take (width pre) = rawBytes pre ∧
      ReadRune (bs.drop (width pre)) =
        .ok (st.r, st.rlen, (bs.drop (width pre)).drop st.rlen) := by
  obtain ⟨hR, -, -, hlen, -, hB, hpos⟩ := trace_next htrace hpre
  have hlt := ignoredWidth_lt pre hpos hcont
  have hsc := scan_reach htrace hpre (by simp [hst])
  simp only [hst] at hsc
  have h1 : ignoredWidth pre + 1 ≤ width pre ∧ width pre ≤ bs.length := ⟨hlt, by omega⟩
  refine ⟨hsc, ?_, ?_, UnmarshalEDN_stop L Unmarshal t htrace hpre hcont hst, hB.symm, hR⟩
  · simp [slice, h1]
  · simp [sliceFrom, h1.2]

/-- C1 at `#foo 42` with the sample lexer and decoder. -/
theorem UnmarshalEDN_endPrev_witness :
    UnmarshalEDN sampleLexer sampleDecode ⟨[], 0⟩ (ascii "#foo 42") =
      ⟨.returned ⟨ascii "foo", 42⟩ none, [0x23, 0x66, 0x6F, 0x6F, 0x20], [ascii " 42"]⟩ :=
  (UnmarshalEDN_endPrev sampleLexer sampleDecode ⟨[], 0⟩ (ascii "#foo 42")
    [asciiStep 0x23 lexCont, asciiStep 0x66 lexCont, asciiStep 0x6F lexCont,
      asciiStep 0x6F lexCont]
    [asciiStep 0x34 lexCont, asciiStep 0x32 lexCont] (asciiStep 0x20 lexEndPrev)
    (by rfl) (by decide) (by decide) (by rfl)).2.2.2.1

/-- C2 (as the code behaves): on a buffer that is exhausted before any code point
is classified `lexEndPrev`, `lexError` or `lexEnd`, the call returns the
reader's end-of-input error `io.EOF` unchanged, every code point has been
classified, the receiver is as before and the decoder is never called. -/
theorem UnmarshalEDN_exhausted {σ V : Type} (L : Lexer σ)
    (Unmarshal : List Nat → V → V × Option GoError) (t : Tag V) (bs : List Nat)
    (hall : ∀ x ∈ trace L bs, x.ls = lexCont ∨ x.ls = lexIgnore) :
    UnmarshalEDN L Unmarshal t bs =
      ⟨.returned t (some .ioEOF), runes (trace L bs), []⟩ := by
  simp [UnmarshalEDN, scan_eof hall]

/-- C2 at `#foo`. -/
theorem UnmarshalEDN_exhausted_witness :
    UnmarshalEDN sampleLexer sampleDecode ⟨ascii "old", 7⟩ (ascii "#foo") =
      ⟨.returned ⟨ascii "old", 7⟩ (some .ioEOF), [0x23, 0x66, 0x6F, 0x6F], []⟩ :=
  UnmarshalEDN_exhausted sampleLexer sampleDecode ⟨ascii "old", 7⟩ (ascii "#foo") (by decide)

/-- C2 fails as stated: on `#foo` the error returned is `io.EOF`, which is not an
"unexpected end of tag" error. -/
theorem UnmarshalEDN_exhausted_not_endOfTag :
    (UnmarshalEDN sampleLexer sampleDecode ⟨ascii "old", 7⟩ (ascii "#foo")).result =
        .returned ⟨ascii "old", 7⟩ (some .ioEOF) ∧
      GoError.ioEOF ≠ UnexpectedEndOfTag := by
  constructor
  · rfl
  · decide

/-- C3 (as the code behaves): `Tag.UnmarshalEDN` has no check of its own on the
length of the name. After a one-byte first code point classified `lexCont`,
when the next code point is classified `lexError` (the space of `# 42` for a
reader that rejects whitespace after `#`) the call returns `lex.err` with the
receiver as before and no decoder call; when the next code point is classified
`lexEndPrev` (the space of `+ 42`) the name becomes the empty string, the
decoder is called on `bs[1:]`, and the call returns what the decoder returns. -/
theorem UnmarshalEDN_empty_name {σ V : Type} (L : Lexer σ)
    (Unmarshal : List Nat → V → V × Option GoError) (t : Tag V) (bs : List Nat)
    (sigil st : Step σ) (post : List (Step σ)) (htrace : trace L bs = sigil :: st :: post)
    (hsigil : sigil.ls = lexCont) (hone : sigil.rlen = 1) :
    (st.ls = lexError →
        UnmarshalEDN L Unmarshal t bs =
          ⟨.returned t (L.err st.lex), [sigil.r, st.r], []⟩) ∧
      (st.ls = lexEndPrev →
        UnmarshalEDN L Unmarshal t bs =
          ⟨.returned ⟨[], (Unmarshal (bs.drop 1) t.Value).1⟩
              (Unmarshal (bs.drop 1) t.Value).2,
            [sigil.r, st.r], [bs.drop 1]⟩) := by
  have htr : trace L bs = [sigil] ++ st :: post := by simpa using htrace
  have hpre : ∀ x ∈ [sigil], x.ls = lexCont ∨ x.ls = lexIgnore := by simp [hsigil]
  constructor
  · intro hst
    have hsc := scan_reach htr hpre (by simp [hst])
    simp only [hst] at hsc
    simp [UnmarshalEDN, hsc, runes]
  · intro hst
    have h := @UnmarshalEDN_stop σ V L Unmarshal t bs [sigil] post st
      htr hpre ⟨sigil, by simp, hsigil⟩ hst
    have hw : width [sigil] = 1 := by simp [width, hone]
    have hi : ignoredWidth [sigil] = 0 := by simp [ignoredWidth, width, hsigil]
    have hd : (bs.take 1).drop (0 + 1) = [] := by
      apply List.drop_eq_nil_of_le
      simp only [List.length_take]
      omega
    rw [h, hw, hi, hd]
    simp [runes]

/-- C3 at `# 42`, where the sample reader answers `lexError` for the space, and
at `+ 42`, where it answers `lexEndPrev`. -/
theorem UnmarshalEDN_empty_name_witness :
    UnmarshalEDN readerLexer sampleDecode ⟨ascii "old", 7⟩ (ascii "# 42") =
        ⟨.returned ⟨ascii "old", 7⟩ (some (.other "syntax error")), [0x23, 0x20], []⟩ ∧
      UnmarshalEDN readerLexer sampleDecode ⟨ascii "old", 7⟩ (ascii "+ 42") =
        ⟨.returned ⟨[], 42⟩ none, [0x2B, 0x20], [ascii " 42"]⟩ :=
  ⟨(UnmarshalEDN_empty_name readerLexer sampleDecode ⟨ascii "old", 7⟩ (ascii "# 42")
      ⟨0x23, 1, [0x23], lexCont, .pound⟩ ⟨0x20, 1, [0x20], lexError, .failed⟩
      [⟨0x34, 1, [0x34], lexError, .failed⟩, ⟨0x32, 1, [0x32], lexError, .failed⟩]
      (by rfl) (by rfl) (by rfl)).1 (by rfl),
    (UnmarshalEDN_empty_name readerLexer sampleDecode ⟨ascii "old", 7⟩ (ascii "+ 42")
      ⟨0x2B, 1, [0x2B], lexCont, .token⟩ ⟨0x20, 1, [0x20], lexEndPrev, .token⟩
      [⟨0x34, 1, [0x34], lexCont, .token⟩, ⟨0x32, 1, [0x32], lexCont, .token⟩]
      (by rfl) (by rfl) (by rfl)).2 (by rfl)⟩

/-- C3 fails as stated: on `+ 42`, with `+` classified `lexCont` and the space
`lexEndPrev`, the call returns without error and the resulting name is empty. -/
theorem UnmarshalEDN_empty_name_accepted :
    (trace readerLexer (ascii "+ 42")).map Step.ls =
        [lexCont, lexEndPrev, lexCont, lexCont] ∧
      (UnmarshalEDN readerLexer sampleDecode ⟨ascii "old", 7⟩ (ascii "+ 42")).result =
        .returned ⟨[], 42⟩ none := by
  refine ⟨by rfl, by rfl⟩

/-- C4 (as the code behaves): when the scan succeeds and the decoder fails on
`bs[endTag:]` with `e`, the call returns exactly `e`; the receiver's name has
already been set to `bs[start+1 : endTag]` and its value is what the decoder
left. -/
theorem UnmarshalEDN_decode_error {σ V : Type} (L : Lexer σ)
    (Unmarshal : List Nat → V → V × Option GoError) (t : Tag V) (bs : List Nat)
    (pre post : List (Step σ)) (st : Step σ) (v : V) (e : GoError)
    (htrace : trace L bs = pre ++ st :: post)
    (hpre : ∀ x ∈ pre, x.ls = lexCont ∨ x.ls = lexIgnore)
    (hcont : ∃ x ∈ pre, x.ls = lexCont) (hst : st.ls = lexEndPrev)
    (hdec : Unmarshal (bs.drop (width pre)) t.Value = (v, some e)) :
    (UnmarshalEDN L Unmarshal t bs).result =
      .returned ⟨(bs.take (width pre)).drop (ignoredWidth pre + 1), v⟩ (some e) := by
  rw [UnmarshalEDN_stop L Unmarshal t htrace hpre hcont hst, hdec]

/-- C4 at `#foo x` with a receiver named `old`. -/
theorem UnmarshalEDN_decode_error_witness :
    (UnmarshalEDN sampleLexer sampleDecode ⟨ascii "old", 7⟩ (ascii "#foo x")).result =
      .returned ⟨ascii "foo", 7⟩ (some (.other "invalid number")) :=
  UnmarshalEDN_decode_error sampleLexer sampleDecode ⟨ascii "old", 7⟩ (ascii "#foo x")
    [asciiStep 0x23 lexCont, asciiStep 0x66 lexCont, asciiStep 0x6F lexCont,
      asciiStep 0x6F lexCont]
    [asciiStep 0x78 lexCont] (asciiStep 0x20 lexEndPrev) 7 (.other "invalid number")
    (by rfl) (by decide) (by decide) (by rfl) (by rfl)

/-- C4 fails as stated: on `#foo x` the decoder fails, and the receiver's name,
`old` before the call, is `foo` after it. -/
theorem UnmarshalEDN_decode_error_renames :
    (UnmarshalEDN sampleLexer sampleDecode ⟨ascii "old", 7⟩ (ascii "#foo x")).result =
        .returned ⟨ascii "foo", 7⟩ (some (.other "invalid number")) ∧
      ascii "foo" ≠ ascii "old" := by
  constructor
  · rfl
  · decide

/-- C5: at the first code point the scan classifies `lexError` or `lexEnd` the
call returns, with `lex.err` as it stands after that classification for
`lexError` and with `errUnexpected` for `lexEnd`; that code point is the last
one classified, the receiver is as before and the decoder is not called. -/
theorem UnmarshalEDN_abort {σ V : Type} (L : Lexer σ)
    (Unmarshal : List Nat → V → V × Option GoError) (t : Tag V) (bs : List Nat)
    (pre post : List (Step σ)) (st : Step σ) (htrace : trace L bs = pre ++ st :: post)
    (hpre : ∀ x ∈ pre, x.ls = lexCont ∨ x.ls = lexIgnore)
    (hst : st.ls = lexError ∨ st.ls = lexEnd) :
    UnmarshalEDN L Unmarshal t bs =
      ⟨.returned t (if st.ls = lexError then L.err st.lex else some .errUnexpected),
        runes pre ++ [st.r], []⟩ := by
  have hsc := scan_reach htrace hpre (by rcases hst with h | h <;> simp [h])
  rcases hst with h | h <;> simp only [h] at hsc <;> simp [UnmarshalEDN, hsc, h]

/-- C5 at `#fo!o 1` (classifier error) and at `#fo;o 1` (unexpected end). -/
theorem UnmarshalEDN_abort_witness :
    UnmarshalEDN sampleLexer sampleDecode ⟨ascii "old", 7⟩ (ascii "#fo!o 1") =
        ⟨.returned ⟨ascii "old", 7⟩ (some (.other "illegal rune")),
          [0x23, 0x66, 0x6F, 0x21], []⟩ ∧
      UnmarshalEDN sampleLexer sampleDecode ⟨ascii "old", 7⟩ (ascii "#fo;o 1") =
        ⟨.returned ⟨ascii "old", 7⟩ (some .errUnexpected), [0x23, 0x66, 0x6F, 0x3B], []⟩ :=
  ⟨UnmarshalEDN_abort sampleLexer sampleDecode ⟨ascii "old", 7⟩ (ascii "#fo!o 1")
      [asciiStep 0x23 lexCont, asciiStep 0x66 lexCont, asciiStep 0x6F lexCont]
      [asciiStep 0x6F lexCont, asciiStep 0x20 lexEndPrev, asciiStep 0x31 lexCont]
      (asciiStep 0x21 lexError) (by rfl) (by decide) (by decide),
    UnmarshalEDN_abort sampleLexer sampleDecode ⟨ascii "old", 7⟩ (ascii "#fo;o 1")
      [asciiStep 0x23 lexCont, asciiStep 0x66 lexCont, asciiStep 0x6F lexCont]
      [asciiStep 0x6F lexCont, asciiStep 0x20 lexEndPrev, asciiStep 0x31 lexCont]
      (asciiStep 0x3B lexEnd) (by rfl) (by decide) (by decide)⟩

/-- Without a `lexCont` code point the two offsets coincide. -/
theorem ignoredWidth_eq_width {σ : Type} (steps : List (Step σ))
    (hall : ∀ x ∈ steps, x.ls = lexIgnore) : ignoredWidth steps = width steps := by
  have hf : steps.filter (fun x => decide (x.ls = lexIgnore)) = steps := by
    rw [List.filter_eq_self]
    intro x hx
    simp [hall x hx]
  simp only [ignoredWidth, hf]

theorem afterSigil_split {σ : Type} :
    ∀ l : List (Step σ), afterSigil (l.map Step.ls) = true →
      ∃ ign conts, l = ign ++ conts ∧ (∀ x ∈ ign, x.ls = lexIgnore) ∧
        (∀ x ∈ conts, x.ls = lexCont) := by
  intro l
  induction l with
  | nil => intro _; exact ⟨[], [], rfl, by simp, by simp⟩
  | cons x xs ih =>
    intro h
    simp only [List.map_cons] at h
    cases hx : x.ls with
    | lexIgnore =>
      rw [hx] at h
      obtain ⟨ign, conts, he, hi, hc⟩ := ih (by simpa [afterSigil] using h)
      refine ⟨x :: ign, conts, by simp [he], ?_, hc⟩
      intro y hy
      rcases List.mem_cons.mp hy with rfl | hy
      · exact hx
      · exact hi y hy
    | lexCont =>
      rw [hx] at h
      simp only [afterSigil, List.all_eq_true, List.mem_map, decide_eq_true_eq,
        forall_exists_index, and_imp, forall_apply_eq_imp_iff₂] at h
      refine ⟨[], x :: xs, rfl, by simp, ?_⟩
      intro y hy
      rcases List.mem_cons.mp hy with rfl | hy
      · exact hx
      · exact h y hy
    | lexEnd => rw [hx] at h; simp [afterSigil] at h
    | lexEndPrev => rw [hx] at h; simp [afterSigil] at h
    | lexError => rw [hx] at h; simp [afterSigil] at h

theorem ignoresPrecedeName_split {σ : Type} :
    ∀ l : List (Step σ), ignoresPrecedeName (l.map Step.ls) = true →
      ∃ ign1 sigil ign2 conts, l = ign1 ++ sigil :: (ign2 ++ conts) ∧
        (∀ x ∈ ign1, x.ls = lexIgnore) ∧ sigil.ls = lexCont ∧
        (∀ x ∈ ign2, x.ls = lexIgnore) ∧ (∀ x ∈ conts, x.ls = lexCont) := by
  intro l
  induction l with
  | nil => intro h; simp [ignoresPrecedeName] at h
  | cons x xs ih =>
    intro h
    simp only [List.map_cons] at h
    cases hx : x.ls with
    | lexIgnore =>
      rw [hx] at h
      obtain ⟨ign1, sigil, ign2, conts, he, h1, hs, h2, hc⟩ :=
        ih (by simpa [ignoresPrecedeName] using h)
      refine ⟨x :: ign1, sigil, ign2, conts, by simp [he], ?_, hs, h2, hc⟩
      intro y hy
      rcases List.mem_cons.mp hy with rfl | hy
      · exact hx
      · exact h1 y hy
    | lexCont =>
      rw [hx] at h
      obtain ⟨ign2, conts, he, h2, hc⟩ := afterSigil_split xs (by simpa [ignoresPrecedeName] using h)
      exact ⟨[], x, ign2, conts, by simp [he], by simp, hx, h2, hc⟩
    | lexEnd => rw [hx] at h; simp [ignoresPrecedeName] at h
    | lexEndPrev => rw [hx] at h; simp [ignoresPrecedeName] at h
    | lexError => rw [hx] at h; simp [ignoresPrecedeName] at h

theorem filter_cont_ignores {σ : Type} (l : List (Step σ)) (h : ∀ x ∈ l, x.ls = lexIgnore) :
    l.filter (fun x => decide (x.ls = lexCont)) = [] := by
  rw [List.filter_eq_nil_iff]
  intro x hx
  simp [h x hx]

theorem filter_cont_conts {σ : Type} (l : List (Step σ)) (h : ∀ x ∈ l, x.ls = lexCont) :
    l.filter (fun x => decide (x.ls = lexCont)) = l := by
  rw [List.filter_eq_self]
  intro x hx
  simp [h x hx]

theorem filter_ignore_conts {σ : Type} (l : List (Step σ)) (h : ∀ x ∈ l, x.ls = lexCont) :
    l.filter (fun x => decide (x.ls = lexIgnore)) = [] := by
  rw [List.filter_eq_nil_iff]
  intro x hx
  simp [h x hx]

theorem filter_ignore_ignores {σ : Type} (l : List (Step σ))
    (h : ∀ x ∈ l, x.ls = lexIgnore) :
    l.filter (fun x => decide (x.ls = lexIgnore)) = l := by
  rw [List.filter_eq_self]
  intro x hx
  simp [h x hx]

/-- The name when the code points in front of the `lexEndPrev` one split into a
front part in which the `lexCont` code points take one byte in all, and a run
of `lexCont` code points: the name is that run. -/
theorem UnmarshalEDN_name_split {σ V : Type} (L : Lexer σ)
    (Unmarshal : List Nat → V → V × Option GoError) (t : Tag V) {bs : List Nat}
    {front conts post : List (Step σ)} {st : Step σ}
    (htrace : trace L bs = (front ++ conts) ++ st :: post)
    (hfront : ∀ x ∈ front, x.ls = lexCont ∨ x.ls = lexIgnore)
    (hone : ignoredWidth front + 1 = width front)
    (hconts : ∀ x ∈ conts, x.ls = lexCont) (hst : st.ls = lexEndPrev) :
    UnmarshalEDN L Unmarshal t bs =
      ⟨.returned ⟨rawBytes conts,
          (Unmarshal (bs.drop (width (front ++ conts))) t.Value).1⟩
          (Unmarshal (bs.drop (width (front ++ conts))) t.Value).2,
        runes (front ++ conts) ++ [st.r], [bs.drop (width (front ++ conts))]⟩ := by
  have hpre : ∀ x ∈ front ++ conts, x.ls = lexCont ∨ x.ls = lexIgnore := by
    intro x hx
    rcases List.mem_append.mp hx with h | h
    · exact hfront x h
    · exact Or.inl (hconts x h)
  have hcont : ∃ x ∈ front ++ conts, x.ls = lexCont := by
    by_contra hno
    have hall : ∀ x ∈ front, x.ls = lexIgnore := by
      intro x hx
      rcases hfront x hx with h | h
      · exact absurd ⟨x, List.mem_append_left _ hx, h⟩ hno
      · exact h
    have := ignoredWidth_eq_width front hall
    omega
  have h := UnmarshalEDN_stop L Unmarshal t htrace hpre hcont hst
  obtain ⟨-, -, -, -, -, hB, -⟩ := trace_next htrace hpre
  have hraw : ∀ x ∈ front, x.raw.length = x.rlen := by
    intro x hx
    exact traceFrom_raw_length L bs.length L.reset bs x (by
      show x ∈ trace L bs
      rw [htrace]; exact List.mem_append_left _ (List.mem_append_left _ hx))
  have hw : width (front ++ conts) = width front + width conts := by
    simp [width]
  have hi : ignoredWidth (front ++ conts) = ignoredWidth front := by
    simp [ignoredWidth, List.filter_append, filter_ignore_conts conts hconts]
  have hlen : (rawBytes front).length = width front := rawBytes_length front hraw
  have hname : (bs.take (width (front ++ conts))).drop (ignoredWidth front + 1) =
      rawBytes conts := by
    rw [← hB, hone, ← hlen]
    have : rawBytes (front ++ conts) = rawBytes front ++ rawBytes conts := by
      simp [rawBytes]
    rw [this, List.drop_left]
  rw [h, hi, hname]

/-- C6: in a run that ends in `lexEndPrev` and in which every `lexIgnore` code
point precedes the name, before or after the one-byte sigil (the first
`lexCont` code point), the name consists of exactly the bytes of the `lexCont`
code points other than the sigil, in input order, and so holds no `lexIgnore`
code point; the decoder gets the rest of the buffer. -/
theorem UnmarshalEDN_name_bytes {σ V : Type} (L : Lexer σ)
    (Unmarshal : List Nat → V → V × Option GoError) (t : Tag V) (bs : List Nat)
    (pre post : List (Step σ)) (st : Step σ)
    (htrace : trace L bs = pre ++ st :: post) (hst : st.ls = lexEndPrev)
    (hrun : ignoresPrecedeName (pre.map Step.ls) = true)
    (hone : ((pre.filter fun x => x.ls = lexCont).head?).map Step.rlen = some 1) :
    UnmarshalEDN L Unmarshal t bs =
        ⟨.returned ⟨rawBytes ((pre.filter fun x => x.ls = lexCont).tail),
            (Unmarshal (bs.drop (width pre)) t.Value).1⟩
            (Unmarshal (bs.drop (width pre)) t.Value).2,
          runes pre ++ [st.r], [bs.drop (width pre)]⟩ ∧
      (∀ x ∈ (pre.filter fun x => x.ls = lexCont).tail, x.ls ≠ lexIgnore) := by
  obtain ⟨ign1, sigil, ign2, conts, he, h1, hs, h2, hc⟩ := ignoresPrecedeName_split pre hrun
  have hf : pre.filter (fun x => decide (x.ls = lexCont)) = sigil :: conts := by
    rw [he]
    simp [List.filter_append, List.filter_cons, hs, filter_cont_ignores ign1 h1,
      filter_cont_ignores ign2 h2, filter_cont_conts conts hc]
  rw [hf] at hone ⊢
  simp only [List.head?_cons, Option.map_some', Option.some.injEq] at hone
  simp only [List.tail_cons]
  constructor
  · have hesplit : pre = (ign1 ++ sigil :: ign2) ++ conts := by simp [he]
    have hfront : ∀ x ∈ ign1 ++ sigil :: ign2, x.ls = lexCont ∨ x.ls = lexIgnore := by
      intro x hx
      rcases List.mem_append.mp hx with h | h
      · exact Or.inr (h1 x h)
      · rcases List.mem_cons.mp h with rfl | h
        · exact Or.inl hs
        · exact Or.inr (h2 x h)
    have hwidth : ignoredWidth (ign1 ++ sigil :: ign2) + 1 = width (ign1 ++ sigil :: ign2) := by
      simp [ignoredWidth, List.filter_append, List.filter_cons, hs,
        filter_ignore_ignores ign1 h1, filter_ignore_ignores ign2 h2, width, hone]
      omega
    have h := UnmarshalEDN_name_split L Unmarshal t (hesplit ▸ htrace) hfront hwidth hc hst
    rw [hesplit]
    exact h
  · intro x hx
    simp [hc x hx]

/-- C6 at `,#ab 1` with the sample reader, which ignores the comma in front of
the sigil, and at `#,ab 1` with the sample lexer, which ignores the comma
after it: the name is `ab` both times. -/
theorem UnmarshalEDN_name_bytes_witness :
    UnmarshalEDN readerLexer sampleDecode ⟨ascii "old", 7⟩ (ascii ",#ab 1") =
        ⟨.returned ⟨ascii "ab", 1⟩ none, [0x2C, 0x23, 0x61, 0x62, 0x20], [ascii " 1"]⟩ ∧
      UnmarshalEDN sampleLexer sampleDecode ⟨ascii "old", 7⟩ (ascii "#,ab 1") =
        ⟨.returned ⟨ascii "ab", 1⟩ none, [0x23, 0x2C, 0x61, 0x62, 0x20], [ascii " 1"]⟩ :=
  ⟨(UnmarshalEDN_name_bytes readerLexer sampleDecode ⟨ascii "old", 7⟩ (ascii ",#ab 1")
      [⟨0x2C, 1, [0x2C], lexIgnore, .begin⟩, ⟨0x23, 1, [0x23], lexCont, .pound⟩,
        ⟨0x61, 1, [0x61], lexCont, .token⟩, ⟨0x62, 1, [0x62], lexCont, .token⟩]
      [⟨0x31, 1, [0x31], lexCont, .token⟩] ⟨0x20, 1, [0x20], lexEndPrev, .token⟩
      (by rfl) (by rfl) (by rfl) (by rfl)).1,
    (UnmarshalEDN_name_bytes sampleLexer sampleDecode ⟨ascii "old", 7⟩ (ascii "#,ab 1")
      [asciiStep 0x23 lexCont, asciiStep 0x2C lexIgnore, asciiStep 0x61 lexCont,
        asciiStep 0x62 lexCont]
      [asciiStep 0x31 lexCont] (asciiStep 0x20 lexEndPrev)
      (by rfl) (by rfl) (by rfl) (by rfl)).1⟩

/-- Outside the premise of `ignoresPrecedeName` the bytes between `start + 1` and
`endTag` are not the `lexCont` code points: the sample lexer answers
`lexIgnore` for a comma inside a name, and on `#a,b 1` the name is `,b`. An
EDN reader ends the name at that comma instead, as `readerLexer` does. -/
theorem UnmarshalEDN_ignore_after_cont :
    (UnmarshalEDN sampleLexer sampleDecode ⟨ascii "old", 7⟩ (ascii "#a,b 1")).result =
        .returned ⟨ascii ",b", 1⟩ none ∧
      (trace sampleLexer (ascii "#a,b 1")).map Step.ls =
        [lexCont, lexCont, lexIgnore, lexCont, lexEndPrev, lexCont] ∧
      ignoresPrecedeName [lexCont, lexCont, lexIgnore, lexCont] = false ∧
      (trace readerLexer (ascii "#a,b 1")).map Step.ls =
        [lexCont, lexCont, lexEndPrev, lexCont, lexEndPrev, lexCont] := by
  refine ⟨by rfl, by rfl, by rfl, by rfl⟩

/-- C7 (as the code behaves): on `#foo 42` with `#`, `f`, `o`, `o` classified
`lexCont` and the space `lexEndPrev`, the loop stops with `start = 0` and
`endTag = 4`, the offset of the space in front of `42`; the name is `foo`, the
bytes handed to the decoder are ` 42` (the space included), and with a decoder
that maps those bytes to a value that value is the payload. -/
theorem UnmarshalEDN_foo_42 {σ V : Type} (L : Lexer σ)
    (Unmarshal : List Nat → V → V × Option GoError) (t : Tag V) (v : V)
    (hcls : ((trace L (ascii "#foo 42")).take 5).map Step.ls =
      [lexCont, lexCont, lexCont, lexCont, lexEndPrev])
    (hdec : Unmarshal (ascii " 42") t.Value = (v, none)) :
    (scan L (ascii "#foo 42")).exit = .stopped 0 4 ∧
      UnmarshalEDN L Unmarshal t (ascii "#foo 42") =
        ⟨.returned ⟨ascii "foo", v⟩ none, [0x23, 0x66, 0x6F, 0x6F, 0x20], [ascii " 42"]⟩ := by
  have hbs : ascii "#foo 42" = [0x23, 0x66, 0x6F, 0x6F, 0x20, 0x34, 0x32] := by decide
  have hpay : ascii " 42" = [0x20, 0x34, 0x32] := by decide
  have hfoo : ascii "foo" = [0x66, 0x6F, 0x6F] := by decide
  rw [hpay] at hdec
  rw [hbs] at hcls ⊢
  rw [hpay, hfoo]
  cases hT : trace L [0x23, 0x66, 0x6F, 0x6F, 0x20, 0x34, 0x32] with
  | nil => rw [hT] at hcls; simp at hcls
  | cons x1 l1 =>
  cases l1 with
  | nil => rw [hT] at hcls; simp at hcls
  | cons x2 l2 =>
  cases l2 with
  | nil => rw [hT] at hcls; simp at hcls
  | cons x3 l3 =>
  cases l3 with
  | nil => rw [hT] at hcls; simp at hcls
  | cons x4 l4 =>
  cases l4 with
  | nil => rw [hT] at hcls; simp at hcls
  | cons x5 post =>
    rw [hT] at hcls
    simp only [List.take_succ_cons, List.take_zero, List.map_cons, List.map_nil,
      List.cons.injEq, and_true] at hcls
    obtain ⟨c1, c2, c3, c4, c5⟩ := hcls
    have hT1 := hT
    unfold trace at hT1
    obtain ⟨r1, w1, hT2⟩ := traceFrom_ascii hT1 (by decide)
    obtain ⟨r2, w2, hT3⟩ := traceFrom_ascii hT2 (by decide)
    obtain ⟨r3, w3, hT4⟩ := traceFrom_ascii hT3 (by decide)
    obtain ⟨r4, w4, hT5⟩ := traceFrom_ascii hT4 (by decide)
    obtain ⟨r5, -, -⟩ := traceFrom_ascii hT5 (by decide)
    have htr : trace L [0x23, 0x66, 0x6F, 0x6F, 0x20, 0x34, 0x32] =
        [x1, x2, x3, x4] ++ x5 :: post := by simpa using hT
    have hpre : ∀ x ∈ [x1, x2, x3, x4], x.ls = lexCont ∨ x.ls = lexIgnore := by
      simp [c1, c2, c3, c4]
    have hw : width [x1, x2, x3, x4] = 4 := by simp [width, w1, w2, w3, w4]
    have hi : ignoredWidth [x1, x2, x3, x4] = 0 := by
      simp [ignoredWidth, width, List.filter_cons, c1, c2, c3, c4]
    have hsc := scan_reach htr hpre (by simp [c5])
    have hU := UnmarshalEDN_stop L Unmarshal t htr hpre ⟨x1, by simp, c1⟩ c5
    simp only [c5, hw, hi] at hsc
    rw [hw, hi] at hU
    refine ⟨by rw [hsc], ?_⟩
    rw [hU]
    simp [runes, r1, r2, r3, r4, r5, hdec]

/-- C7 with the sample lexer and the sample decoder, whose value for ` 42` is 42. -/
theorem UnmarshalEDN_foo_42_witness :
    (scan sampleLexer (ascii "#foo 42")).exit = .stopped 0 4 ∧
      UnmarshalEDN sampleLexer sampleDecode ⟨ascii "old", 7⟩ (ascii "#foo 42") =
        ⟨.returned ⟨ascii "foo", 42⟩ none, [0x23, 0x66, 0x6F, 0x6F, 0x20], [ascii " 42"]⟩ :=
  UnmarshalEDN_foo_42 sampleLexer sampleDecode ⟨ascii "old", 7⟩ 42 (by rfl) (by rfl)

/-- C7 fails as stated: on `#foo 42` the end offset is 4, where the buffer holds
the space and not the digit `4`, and the bytes handed to the decoder are ` 42`,
not `42`. -/
theorem UnmarshalEDN_foo_42_payload_has_space :
    (scan sampleLexer (ascii "#foo 42")).exit = .stopped 0 4 ∧
      (ascii "#foo 42").drop 4 = ascii " 42" ∧
      (UnmarshalEDN sampleLexer sampleDecode ⟨ascii "old", 7⟩ (ascii "#foo 42")).decoderCalls =
        [ascii " 42"] ∧
      ascii " 42" ≠ ascii "42" := by
  refine ⟨by rfl, by rfl, by rfl, by decide⟩

/-! ## encodeRune -/

theorem uint32_of_valid {c : Int} (h : ValidRune c = true) :
    (c % 4294967296).toNat = c.toNat ∧ 0 ≤ c ∧ c.toNat ≤ 0x10FFFF ∧
      ¬ (0xD800 ≤ c.toNat ∧ c.toNat ≤ 0xDFFF) := by
  simp only [ValidRune, MaxRune] at h
  split at h
  · omega
  · split at h
    · omega
    · simp at h

theorem first_two (p0 : Nat) (h1 : 0xC2 ≤ p0) (h2 : p0 ≤ 0xDF) :
    first p0 = some (2, 0x80, 0xBF) := by
  unfold first
  repeat' split
  all_goals first | rfl | omega

theorem first_three (p0 : Nat) (h1 : 0xE0 ≤ p0) (h2 : p0 ≤ 0xEF) :
    first p0 = some (3, if p0 = 0xE0 then 0xA0 else 0x80, if p0 = 0xED then 0x9F else 0xBF) := by
  unfold first
  repeat' split
  all_goals first | rfl | omega

theorem first_four (p0 : Nat) (h1 : 0xF0 ≤ p0) (h2 : p0 ≤ 0xF4) :
    first p0 = some (4, if p0 = 0xF0 then 0x90 else 0x80, if p0 = 0xF4 then 0x8F else 0xBF) := by
  unfold first
  repeat' split
  all_goals first | rfl | omega

theorem DecodeRune_two (n : Nat) (h0 : 0x80 ≤ n) (h1 : n < 0x800) :
    DecodeRune [0xC0 + n / 64, 0x80 + n % 64] = ((n : Int), 2) := by
  have h1 : ¬ (0xC0 + n / 64 < 0x80) := by omega
  have h2 := first_two (0xC0 + n / 64) (by omega) (by omega)
  simp only [DecodeRune, h1, h2, if_false, List.length_cons, List.length_nil]
  repeat' split
  all_goals first
    | (exfalso; omega)
    | (simp only [Prod.mk.injEq]; constructor <;> first | trivial | omega)

theorem DecodeRune_three (n : Nat) (h0 : 0x800 ≤ n) (h1 : n < 0x10000)
    (hsur : ¬ (0xD800 ≤ n ∧ n ≤ 0xDFFF)) :
    DecodeRune [0xE0 + n / 4096, 0x80 + n / 64 % 64, 0x80 + n % 64] = ((n : Int), 3) := by
  have h1 : ¬ (0xE0 + n / 4096 < 0x80) := by omega
  have h2 := first_three (0xE0 + n / 4096) (by omega) (by omega)
  simp only [DecodeRune, h1, h2, if_false, List.length_cons, List.length_nil]
  by_cases hE0 : 0xE0 + n / 4096 = 0xE0
  · have hED : ¬ (0xE0 + n / 4096 = 0xED) := by omega
    simp only [hE0, hED, if_true, if_false]
    repeat' split
    all_goals first
      | (exfalso; omega)
      | (simp only [Prod.mk.injEq]; constructor <;> first | trivial | omega)
  · by_cases hED : 0xE0 + n / 4096 = 0xED
    · simp only [hED, if_true, if_false]
      repeat' split
      all_goals first
        | (exfalso; omega)
        | (simp only [Prod.mk.injEq]; constructor <;> first | trivial | omega)
    · simp only [hE0, hED, if_false]
      repeat' split
      all_goals first
        | (exfalso; omega)
        | (simp only [Prod.mk.injEq]; constructor <;> first | trivial | omega)

theorem DecodeRune_four (n : Nat) (h0 : 0x10000 ≤ n) (h1 : n ≤ 0x10FFFF) :
    DecodeRune [0xF0 + n / 262144, 0x80 + n / 4096 % 64, 0x80 + n / 64 % 64, 0x80 + n % 64] =
      ((n : Int), 4) := by
  have h1 : ¬ (0xF0 + n / 262144 < 0x80) := by omega
  have h2 := first_four (0xF0 + n / 262144) (by omega) (by omega)
  simp only [DecodeRune, h1, h2, if_false, List.length_cons, List.length_nil]
  by_cases hF0 : 0xF0 + n / 262144 = 0xF0
  · have hF4 : ¬ (0xF0 + n / 262144 = 0xF4) := by omega
    simp only [hF0, hF4, if_true, if_false]
    repeat' split
    all_goals first
      | (exfalso; omega)
      | (simp only [Prod.mk.injEq]; constructor <;> first | trivial | omega)
  · by_cases hF4 : 0xF0 + n / 262144 = 0xF4
    · simp only [hF4, if_true, if_false]
      repeat' split
      all_goals first
        | (exfalso; omega)
        | (simp only [Prod.mk.injEq]; constructor <;> first | trivial | omega)
    · simp only [hF0, hF4, if_false]
      repeat' split
      all_goals first
        | (exfalso; omega)
        | (simp only [Prod.mk.injEq]; constructor <;> first | trivial | omega)

/-- Decoding the UTF-8 encoding of a scalar value gives it back. -/
theorem DecodeRune_utf8Encoding (n : Nat) (hmax : n ≤ 0x10FFFF)
    (hsur : ¬ (0xD800 ≤ n ∧ n ≤ 0xDFFF)) :
    DecodeRune (utf8Encoding n) = ((n : Int), (utf8Encoding n).length) := by
  unfold utf8Encoding
  split
  · simp [DecodeRune, *]
  · split
    · exact DecodeRune_two n (by omega) (by omega)
    · split
      · exact DecodeRune_three n (by omega) (by omega) hsur
      · exact DecodeRune_four n (by omega) hmax

theorem WriteRune_valid (buf : List Nat) (c : Int) (h : ValidRune c = true) :
    WriteRune buf c = buf ++ utf8Encoding c.toNat := by
  obtain ⟨hm, h0, hmax, hsur⟩ := uint32_of_valid h
  unfold WriteRune AppendRune utf8Encoding
  simp only [hm]
  repeat' split
  all_goals first
    | (exfalso; omega)
    | rfl
    | (congr 2; omega)

/-- A property of both branches of a conditional holds of the conditional. -/
theorem ite_cases {α : Type} (P : α → Prop) {c : Prop} [Decidable c] {a b : α}
    (ha : c → P a) (hb : ¬ c → P b) : P (if c then a else b) := by
  split
  · exact ha ‹_›
  · exact hb ‹_›

/-- Outside printable ASCII the escaped form of a rune starts with a backslash. -/
theorem escapedRune_backslash (r : Int) (hnp : ¬ (0x20 ≤ r ∧ r ≤ 0x7E)) :
    (escapedRune r).head? = some 0x5C := by
  unfold escapedRune
  repeat' refine ite_cases (fun l : List Nat => l.head? = some 0x5C) (fun h => ?_) (fun h => ?_)
  all_goals first | (exfalso; omega) | rfl

/-- No escaped form is empty. -/
theorem escapedRune_ne_nil (r : Int) : escapedRune r ≠ [] := by
  unfold escapedRune
  repeat' refine ite_cases (fun l : List Nat => l ≠ []) (fun h => ?_) (fun h => ?_)
  all_goals exact List.cons_ne_nil _ _

/-- The quoted form of a rune: a quote, the escaped form, a quote. -/
theorem QuoteRuneToASCII_eq (r : Int) :
    QuoteRuneToASCII r =
      0x27 :: escapedRune (if !ValidRune r then RuneError else r) ++ [0x27] := by
  simp [QuoteRuneToASCII, appendEscapedRune]

/-- In the default branch `encodeRune` appends the quoted form without its two
quote bytes, and nothing else. -/
theorem encodeRune_default (isWhitespace : Int → Bool) (buf : List Nat) (r : Int)
    (hws : isWhitespace r = true)
    (hsix : r ≠ 0x08 ∧ r ≠ 0x0C ∧ r ≠ 0x0A ∧ r ≠ 0x0D ∧ r ≠ 0x09 ∧ r ≠ 0x20) :
    encodeRune isWhitespace buf r =
      some (buf ++ escapedRune (if !ValidRune r then RuneError else r)) := by
  obtain ⟨h1, h2, h3, h4, h5, h6⟩ := hsix
  simp only [encodeRune, hws, Bool.not_true, Bool.false_eq_true, if_false, h1, h2, h3, h4, h5, h6,
    QuoteRuneToASCII_eq]
  simp [slice]

/-- C8: for every valid code point `c` that `isWhitespace` rejects, `encodeRune`
appends the backslash byte and then the UTF-8 encoding of `c` (the bytes that
decode to `c`), and `Rune(c).MarshalEDN` returns exactly those bytes with a nil
error. -/
theorem encodeRune_non_whitespace (isWhitespace : Int → Bool) (buf : List Nat) (c : Int)
    (hvalid : ValidRune c = true) (hws : isWhitespace c = false) :
    encodeRune isWhitespace buf c = some (buf ++ 0x5C :: utf8Encoding c.toNat) ∧
      Rune.MarshalEDN isWhitespace c = some (0x5C :: utf8Encoding c.toNat, none) ∧
      DecodeRune (utf8Encoding c.toNat) = (c, (utf8Encoding c.toNat).length) := by
  obtain ⟨-, h0, hmax, hsur⟩ := uint32_of_valid hvalid
  have henc : ∀ b : List Nat,
      encodeRune isWhitespace b c = some (b ++ 0x5C :: utf8Encoding c.toNat) := by
    intro b
    simp [encodeRune, hws, WriteRune_valid _ c hvalid]
  refine ⟨henc buf, ?_, ?_⟩
  · simp [Rune.MarshalEDN, henc []]
  · rw [DecodeRune_utf8Encoding c.toNat hmax hsur, Int.toNat_of_nonneg h0]

/-- C8 at U+20AC (the euro sign), which the sample `isWhitespace` rejects. -/
theorem encodeRune_non_whitespace_witness :
    encodeRune sampleWhitespace (ascii "x") 0x20AC = some (ascii "x" ++ [0x5C, 0xE2, 0x82, 0xAC]) ∧
      Rune.MarshalEDN sampleWhitespace 0x20AC = some ([0x5C, 0xE2, 0x82, 0xAC], none) :=
  ⟨(encodeRune_non_whitespace sampleWhitespace (ascii "x") 0x20AC (by decide) (by decide)).1,
    (encodeRune_non_whitespace sampleWhitespace (ascii "x") 0x20AC (by decide) (by decide)).2.1⟩

/-- C9 (as the code behaves): each of the six whitespace controls is written as
its named escape when `isWhitespace` classifies it as whitespace. -/
theorem encodeRune_named (isWhitespace : Int → Bool) (buf : List Nat) :
    (isWhitespace 0x08 = true →
        encodeRune isWhitespace buf 0x08 = some (buf ++ ascii "\\backspace")) ∧
      (isWhitespace 0x0C = true →
        encodeRune isWhitespace buf 0x0C = some (buf ++ ascii "\\formfeed")) ∧
      (isWhitespace 0x0A = true →
        encodeRune isWhitespace buf 0x0A = some (buf ++ ascii "\\newline")) ∧
      (isWhitespace 0x0D = true →
        encodeRune isWhitespace buf 0x0D = some (buf ++ ascii "\\return")) ∧
      (isWhitespace 0x09 = true →
        encodeRune isWhitespace buf 0x09 = some (buf ++ ascii "\\tab")) ∧
      (isWhitespace 0x20 = true →
        encodeRune isWhitespace buf 0x20 = some (buf ++ ascii "\\space")) := by
  refine ⟨?_, ?_, ?_, ?_, ?_, ?_⟩ <;> intro h <;> simp [encodeRune, h]

/-- C9 with the sample `isWhitespace`, which accepts all six controls. -/
theorem encodeRune_named_witness :
    encodeRune sampleWhitespace [] 0x08 = some (ascii "\\backspace") ∧
      encodeRune sampleWhitespace [] 0x20 = some (ascii "\\space") :=
  ⟨(encodeRune_named sampleWhitespace []).1 (by decide),
    (encodeRune_named sampleWhitespace []).2.2.2.2.2 (by decide)⟩

/-- C9 fails as stated: when `isWhitespace` rejects the backspace, `encodeRune`
writes a backslash and the raw byte 0x08, not `\backspace`. -/
theorem encodeRune_backspace_not_whitespace :
    encodeRune noWhitespace [] 0x08 = some [0x5C, 0x08] ∧
      encodeRune noWhitespace [] 0x08 ≠ some (ascii "\\backspace") := by
  decide

/-- C10 (as the code behaves): for a rune that `isWhitespace` accepts, that is none
of the six controls and that lies outside printable ASCII, `encodeRune` appends
exactly `strconv.QuoteRuneToASCII(r)` without its first and last byte; that
stripped form begins with the backslash of the Go escape, and no further
backslash is written in front of it. -/
theorem encodeRune_other_whitespace (isWhitespace : Int → Bool) (buf : List Nat) (r : Int)
    (hws : isWhitespace r = true)
    (hsix : r ≠ 0x08 ∧ r ≠ 0x0C ∧ r ≠ 0x0A ∧ r ≠ 0x0D ∧ r ≠ 0x09 ∧ r ≠ 0x20)
    (hnp : ¬ (0x20 ≤ r ∧ r ≤ 0x7E)) :
    ∃ s, QuoteRuneToASCII r = 0x27 :: s ++ [0x27] ∧
      slice (QuoteRuneToASCII r) 1 ((QuoteRuneToASCII r).length - 1) = some s ∧
      encodeRune isWhitespace buf r = some (buf ++ s) ∧ s.head? = some 0x5C := by
  refine ⟨escapedRune (if !ValidRune r then RuneError else r), QuoteRuneToASCII_eq r, ?_,
    encodeRune_default isWhitespace buf r hws hsix, ?_⟩
  · rw [QuoteRuneToASCII_eq]
    simp [slice]
  · apply escapedRune_backslash
    by_cases hv : ValidRune r = true
    · simpa [hv] using hnp
    · simp [hv, RuneError]

/-- C10 at U+2003 (em space): the output is the six bytes `\u2003`. -/
theorem encodeRune_other_whitespace_witness :
    ∃ s, QuoteRuneToASCII 0x2003 = 0x27 :: s ++ [0x27] ∧
      slice (QuoteRuneToASCII 0x2003) 1 ((QuoteRuneToASCII 0x2003).length - 1) = some s ∧
      encodeRune sampleWhitespace [] 0x2003 = some ([] ++ s) ∧ s.head? = some 0x5C :=
  encodeRune_other_whitespace sampleWhitespace [] 0x2003 (by decide) (by decide) (by decide)

/-- C10 fails as stated: for U+2003 the output is the six bytes `\u2003`, the stripped quoted
form itself, and not a backslash followed by that form. -/
theorem encodeRune_no_extra_backslash :
    QuoteRuneToASCII 0x2003 = ascii "'\\u2003'" ∧
      encodeRune sampleWhitespace [] 0x2003 = some (ascii "\\u2003") ∧
      encodeRune sampleWhitespace [] 0x2003 ≠ some (0x5C :: ascii "\\u2003") := by
  decide

/-- What `WriteRune` writes is appended to the buffer and is not empty. -/
theorem WriteRune_append (buf : List Nat) (r : Int) :
    WriteRune buf r = buf ++ WriteRune [] r ∧ WriteRune [] r ≠ [] := by
  unfold WriteRune AppendRune
  generalize (r % 4294967296).toNat = i
  dsimp only
  constructor
  · repeat' split
    all_goals rfl
  · repeat' split
    all_goals exact List.cons_ne_nil _ _

/-- Whatever `isWhitespace` answers, `encodeRune` appends a non-empty sequence of
bytes to the buffer and does not panic. -/
theorem encodeRune_appends (isWhitespace : Int → Bool) (r : Int) :
    ∃ out, out ≠ [] ∧ ∀ b : List Nat, encodeRune isWhitespace b r = some (b ++ out) := by
  cases hws : isWhitespace r with
  | false =>
    refine ⟨0x5C :: WriteRune [] r, List.cons_ne_nil _ _, fun b => ?_⟩
    simp only [encodeRune, hws, Bool.not_false, if_true]
    rw [(WriteRune_append (b ++ [0x5C]) r).1]
    simp
  | true =>
    by_cases h1 : r = 0x08
    · exact ⟨ascii "\\backspace", by decide, fun b => by subst h1; simp [encodeRune, hws]⟩
    by_cases h2 : r = 0x0C
    · exact ⟨ascii "\\formfeed", by decide, fun b => by subst h2; simp [encodeRune, hws]⟩
    by_cases h3 : r = 0x0A
    · exact ⟨ascii "\\newline", by decide, fun b => by subst h3; simp [encodeRune, hws]⟩
    by_cases h4 : r = 0x0D
    · exact ⟨ascii "\\return", by decide, fun b => by subst h4; simp [encodeRune, hws]⟩
    by_cases h5 : r = 0x09
    · exact ⟨ascii "\\tab", by decide, fun b => by subst h5; simp [encodeRune, hws]⟩
    by_cases h6 : r = 0x20
    · exact ⟨ascii "\\space", by decide, fun b => by subst h6; simp [encodeRune, hws]⟩
    exact ⟨escapedRune (if !ValidRune r then RuneError else r), escapedRune_ne_nil _,
      fun b => encodeRune_default isWhitespace b r hws ⟨h1, h2, h3, h4, h5, h6⟩⟩

/-- C11: the claim fails on a printable ASCII rune that `isWhitespace` accepts and
that is none of the six controls: for the comma `encodeRune` appends the single
byte `,`, with no backslash, and `Rune(',').MarshalEDN` returns that byte. -/
theorem encodeRune_comma_no_backslash :
    encodeRune sampleWhitespace [] 0x2C = some [0x2C] ∧
      Rune.MarshalEDN sampleWhitespace 0x2C = some ([0x2C], none) ∧
      QuoteRuneToASCII 0x2C = ascii "','" ∧
      ([0x2C] : List Nat).head? ≠ some 0x5C := by
  decide

/-- C12: `encodeRune` has no failure mode. For every rune and every `isWhitespace`
the quoted form has at least three bytes, the slice `val[1 : len(val)-1]` is in
bounds, `encodeRune` appends a non-empty output without a panic, and
`Rune(r).MarshalEDN` returns non-empty bytes with a nil error. -/
theorem encodeRune_no_failure (isWhitespace : Int → Bool) (buf : List Nat) (r : Int) :
    3 ≤ (QuoteRuneToASCII r).length ∧
      (∃ s, slice (QuoteRuneToASCII r) 1 ((QuoteRuneToASCII r).length - 1) = some s) ∧
      (∃ out, out ≠ [] ∧ encodeRune isWhitespace buf r = some (buf ++ out)) ∧
      (∃ bytes, bytes ≠ [] ∧ Rune.MarshalEDN isWhitespace r = some (bytes, none)) := by
  have hne := escapedRune_ne_nil (if !ValidRune r then RuneError else r)
  have hlen : 1 ≤ (escapedRune (if !ValidRune r then RuneError else r)).length :=
    List.length_pos.mpr hne
  obtain ⟨out, hout, henc⟩ := encodeRune_appends isWhitespace r
  refine ⟨?_, ?_, ⟨out, hout, henc buf⟩, ⟨out, hout, ?_⟩⟩
  · rw [QuoteRuneToASCII_eq]
    simp only [List.length_cons, List.length_append, List.length_nil]
    omega
  · rw [QuoteRuneToASCII_eq]
    refine ⟨escapedRune (if !ValidRune r then RuneError else r), ?_⟩
    simp [slice]
  · simp [Rune.MarshalEDN, henc []]

/-! ## Encoding of Tag, Keyword and Symbol -/

/-- C13: when `Marshal(t.Value)` returns bytes `b` without error, `Tag.MarshalEDN`
returns `#`, the name, one space and `b` with a nil error; when it fails with
`e`, `Tag.MarshalEDN` returns nil bytes and `e` itself. -/
theorem Tag_MarshalEDN_spec {V : Type} (Marshal : V → Option (List Nat) × Option GoError)
    (t : Tag V) :
    (∀ b, Marshal t.Value = (b, none) →
        Tag.MarshalEDN Marshal t =
          (some (0x23 :: t.Tagname ++ 0x20 :: b.getD []), none)) ∧
      (∀ b e, Marshal t.Value = (b, some e) →
        Tag.MarshalEDN Marshal t = (none, some e)) := by
  constructor
  · intro b h
    simp [Tag.MarshalEDN, h, ascii]
  · intro b e h
    simp [Tag.MarshalEDN, h]

/-- C13 at the tag `#foo` with the value 42, which the sample encoder accepts, and
with the value 4200, which it refuses. -/
theorem Tag_MarshalEDN_spec_witness :
    Tag.MarshalEDN sampleMarshal ⟨ascii "foo", 42⟩ = (some (ascii "#foo 42"), none) ∧
      Tag.MarshalEDN sampleMarshal ⟨ascii "foo", 4200⟩ = (none, some (.other "too large")) :=
  ⟨(Tag_MarshalEDN_spec sampleMarshal ⟨ascii "foo", 42⟩).1 (some (ascii "42")) (by decide),
    (Tag_MarshalEDN_spec sampleMarshal ⟨ascii "foo", 4200⟩).2 none (.other "too large")
      (by decide)⟩

/-- C14: the text form of a keyword is `:` followed by the name, the text form of
a symbol is the name, and both `MarshalEDN` methods return exactly the bytes of
the text form with a nil error: nothing in the name is escaped. -/
theorem Keyword_Symbol_encoding (n : List Nat) :
    Keyword.String n = 0x3A :: n ∧
      Keyword.MarshalEDN n = (Keyword.String n, none) ∧
      Keyword.MarshalEDN n = (0x3A :: n, none) ∧
      Symbol.String n = n ∧
      Symbol.MarshalEDN n = (Symbol.String n, none) ∧
      Symbol.MarshalEDN n = (n, none) := by
  refine ⟨?_, rfl, ?_, rfl, rfl, rfl⟩
  · simp [Keyword.String, ascii]
  · simp [Keyword.MarshalEDN, Keyword.String, ascii]

/-! ## Text forms of the containers -/

/-- The loop `for _, val := range v { vals = append(vals, f(val)) }` collects the
images of the elements in order. -/
theorem foldl_append_singleton {α β : Type} (f : α → β) (l : List α) (init : List β) :
    l.foldl (fun acc x => acc ++ [f x]) init = init ++ l.map f := by
  induction l generalizing init with
  | nil => simp
  | cons x xs ih => simp [ih]

theorem foldl_sep {α : Type} (sep : List α) (rest : List (List α)) (e : List α) :
    rest.foldl (fun b s => b ++ sep ++ s) e = e ++ (rest.map (sep ++ ·)).flatten := by
  induction rest generalizing e with
  | nil => simp
  | cons x xs ih =>
    simp only [List.foldl_cons, List.map_cons, List.flatten_cons]
    rw [ih]
    simp only [List.append_assoc]

theorem intercalate_cons {α : Type} (sep : List α) (rest : List (List α)) (e : List α) :
    List.intercalate sep (e :: rest) = e ++ (rest.map (sep ++ ·)).flatten := by
  induction rest generalizing e with
  | nil => simp [List.intercalate]
  | cons x xs ih =>
    have h := ih x
    simp only [List.intercalate] at h ⊢
    simp [List.intersperse, h]

/-- The function `strings.Join` joins the elements with the separator between
neighbours. -/
theorem Join_eq_intercalate (elems : List (List Nat)) (sep : List Nat) :
    Join elems sep = List.intercalate sep elems := by
  match elems with
  | [] => simp [Join, List.intercalate]
  | [e] => simp [Join, List.intercalate]
  | e :: e2 :: rest =>
    rw [intercalate_cons]
    simp only [Join]
    exact foldl_sep sep (e2 :: rest) e

theorem length_sep_flatten {α : Type} (sep : List α) (rest : List (List α)) :
    ((rest.map (sep ++ ·)).flatten).length =
      (rest.map List.length).sum + sep.length * rest.length := by
  induction rest with
  | nil => simp
  | cons x xs ih =>
    simp only [List.map_cons, List.flatten_cons, List.length_append, List.sum_cons,
      List.length_cons, ih, Nat.mul_succ]
    omega

/-- Joining `n ≥ 1` elements inserts the separator `n - 1` times. -/
theorem length_intercalate {α : Type} (sep : List α) (xs : List (List α)) :
    (List.intercalate sep xs).length =
      (xs.map List.length).sum + sep.length * (xs.length - 1) := by
  match xs with
  | [] => simp [List.intercalate]
  | e :: rest =>
    rw [intercalate_cons, List.length_append, length_sep_flatten]
    simp only [List.map_cons, List.sum_cons, List.length_cons, Nat.add_sub_cancel]
    omega

/-- C15: the text form of a vector is `[`, the text forms of its elements in
index order joined by single spaces, and `]`; the rendered elements are as many
as the elements of the vector and in the same order; the empty vector gives
`[]`, a vector with the one element `x` gives `[`, the text of `x`, `]`, and
the vector holding 5 gives `[5]`. -/
theorem Vector_String_spec {V : Type} (Sprint : V → List Nat) (v : List V) :
    Vector.String Sprint v = 0x5B :: List.intercalate [0x20] (v.map Sprint) ++ [0x5D] ∧
      v.foldl (fun vals val => vals ++ [Sprint val]) [] = v.map Sprint ∧
      (v.map Sprint).length = v.length ∧
      (∀ i (h : i < v.length), (v.map Sprint)[i]? = some (Sprint (v.get ⟨i, h⟩))) ∧
      Vector.String Sprint [] = ascii "[]" ∧
      (∀ x, Vector.String Sprint [x] = 0x5B :: Sprint x ++ [0x5D]) ∧
      Vector.String sampleSprint [5] = ascii "[5]" := by
  have hfold : v.foldl (fun vals val => vals ++ [Sprint val]) [] = v.map Sprint := by
    rw [foldl_append_singleton]; simp
  refine ⟨?_, hfold, by simp, ?_, by rfl, ?_, by decide⟩
  · simp only [Vector.String, hfold, Join_eq_intercalate]
    simp [ascii]
  · intro i h
    simp [List.getElem?_eq_getElem h]
  · intro x
    simp [Vector.String, Join, ascii]

/-- C16: the text forms of a list and of a vector with the same elements have the
same inner text and differ in the delimiters, `(` and `)` against `[` and `]`;
no list has the text form of any vector. -/
theorem List_Vector_delimiters {V : Type} (Sprint : V → List Nat) (xs ys : List V) :
    List.String Sprint xs = 0x28 :: List.intercalate [0x20] (xs.map Sprint) ++ [0x29] ∧
      Vector.String Sprint xs = 0x5B :: List.intercalate [0x20] (xs.map Sprint) ++ [0x5D] ∧
      List.String Sprint xs ≠ Vector.String Sprint ys := by
  have hl : ∀ zs : List V,
      List.String Sprint zs = 0x28 :: List.intercalate [0x20] (zs.map Sprint) ++ [0x29] := by
    intro zs
    simp only [List.String, foldl_append_singleton, Join_eq_intercalate]
    simp [ascii]
  have hv : ∀ zs : List V,
      Vector.String Sprint zs = 0x5B :: List.intercalate [0x20] (zs.map Sprint) ++ [0x5D] := by
    intro zs
    simp only [Vector.String, foldl_append_singleton, Join_eq_intercalate]
    simp [ascii]
  refine ⟨hl xs, hv xs, ?_⟩
  rw [hl xs, hv ys]
  intro h
  have := (List.cons.inj h).1
  omega

/-- C17: for a set with the entries `s` (distinct keys), visited by `range` in any
order `visit`, the text form is `#{`, the text forms of the keys in the order
of the visit joined by single spaces, and `}`; every key of the set occurs
exactly once among them; the empty set gives `#{}` and a set with the single
key `m` gives `#{`, the text of `m`, `}`. -/
theorem Set_String_spec {V : Type} (Sprint : V → List Nat) (s visit : List (V × Bool))
    (hs : (s.map Prod.fst).Nodup) (hvisit : visit.Perm s) :
    Set.String Sprint visit =
        0x23 :: 0x7B :: List.intercalate [0x20] ((visit.map Prod.fst).map Sprint) ++ [0x7D] ∧
      (visit.map Prod.fst).Perm (s.map Prod.fst) ∧
      (visit.map Prod.fst).Nodup ∧
      (s = [] → Set.String Sprint visit = [0x23, 0x7B, 0x7D]) ∧
      (∀ m b, s = [(m, b)] → Set.String Sprint visit = 0x23 :: 0x7B :: Sprint m ++ [0x7D]) := by
  have hk : (visit.map Prod.fst).Perm (s.map Prod.fst) := hvisit.map _
  have hform : ∀ zs : List (V × Bool), Set.String Sprint zs =
      0x23 :: 0x7B :: List.intercalate [0x20] ((zs.map Prod.fst).map Sprint) ++ [0x7D] := by
    intro zs
    simp only [Set.String, foldl_append_singleton (fun kv : V × Bool => Sprint kv.1),
      Join_eq_intercalate]
    simp [ascii, Function.comp_def]
  refine ⟨hform visit, hk, hk.nodup_iff.mpr hs, ?_, ?_⟩
  · intro he
    subst he
    rw [List.perm_nil.mp hvisit, hform]
    simp [List.intercalate]
  · intro m b he
    subst he
    rw [List.perm_singleton.mp hvisit, hform]
    simp [List.intercalate]

/-- C17 at the set of 5 and 7 visited with 7 first. -/
theorem Set_String_spec_witness :
    Set.String sampleSprint [(7, true), (5, true)] = [0x23, 0x7B, 0x37, 0x20, 0x35, 0x7D] ∧
      ([(7, true), (5, true)].map Prod.fst).Nodup :=
  have h := Set_String_spec sampleSprint [(5, true), (7, true)] [(7, true), (5, true)]
    (by decide) (List.Perm.swap _ _ _)
  ⟨h.1, h.2.2.1⟩

/-- C18: for a map with the entries `m` (distinct keys), visited by `range` in any
order `visit`, the text form is `{`, one pair per entry in the order of the
visit (key text, one space, value text) joined by a comma and a space, and `}`;
every key of the map occurs exactly once among the pairs; the empty map gives
`{}`, and with `n ≥ 1` entries the text is made of the two braces, the `n`
pairs and `n - 1` separators of two bytes. -/
theorem Map_String_spec {V : Type} (fmtS : V → List Nat) (m visit : List (V × V))
    (hm : (m.map Prod.fst).Nodup) (hvisit : visit.Perm m) :
    Map.String fmtS visit =
        0x7B :: List.intercalate [0x2C, 0x20]
          (visit.map fun kv => fmtS kv.1 ++ 0x20 :: fmtS kv.2) ++ [0x7D] ∧
      (visit.map Prod.fst).Perm (m.map Prod.fst) ∧
      (visit.map Prod.fst).Nodup ∧
      visit.length = m.length ∧
      (m = [] → Map.String fmtS visit = [0x7B, 0x7D]) ∧
      (1 ≤ m.length → (Map.String fmtS visit).length =
        2 + ((visit.map fun kv => fmtS kv.1 ++ 0x20 :: fmtS kv.2).map List.length).sum +
          2 * (m.length - 1)) := by
  have hk : (visit.map Prod.fst).Perm (m.map Prod.fst) := hvisit.map _
  have hform : ∀ zs : List (V × V), Map.String fmtS zs =
      0x7B :: List.intercalate [0x2C, 0x20]
        (zs.map fun kv => fmtS kv.1 ++ 0x20 :: fmtS kv.2) ++ [0x7D] := by
    intro zs
    simp only [Map.String,
      foldl_append_singleton (fun kv : V × V => fmtS kv.1 ++ ascii " " ++ fmtS kv.2),
      Join_eq_intercalate]
    simp [ascii]
  refine ⟨hform visit, hk, hk.nodup_iff.mpr hm, hvisit.length_eq, ?_, ?_⟩
  · intro he
    subst he
    rw [List.perm_nil.mp hvisit, hform]
    simp [List.intercalate]
  · intro hn
    rw [hform]
    simp only [List.length_append, List.length_cons, List.length_nil, length_intercalate,
      List.length_map, hvisit.length_eq]
    omega

/-- C18 at the map with the entries 5 to 12 and 7 to 8, visited in that order. -/
theorem Map_String_spec_witness :
    Map.String sampleSprint [(5, 12), (7, 8)] = ascii "\x7b5 12, 7 8\x7d" ∧
      (Map.String sampleSprint [(5, 12), (7, 8)]).length = 2 + (4 + 3) + 2 * (2 - 1) :=
  have h := Map_String_spec sampleSprint [(5, 12), (7, 8)] [(5, 12), (7, 8)]
    (by decide) (List.Perm.refl _)
  ⟨h.1, h.2.2.2.2.2 (by decide)⟩

/-! ## Offsets and failures of the scan -/

/-- C19: after the iterations for any run `pre` of `lexCont` and `lexIgnore` code
points the loop stands at `start = ignoredWidth pre` and `endTag = width pre`
with `bs[endTag:]` unread, and `start ≤ endTag = bytes read so far ≤ len(bs)`.
When the next code point is `lexEndPrev`: after at least one `lexCont` code
point `start + 1 ≤ endTag ≤ len(bs)`, both slice expressions are in bounds and
the payload handed to the decoder is strictly shorter than `bs`; without one
`start + 1 ≤ endTag` fails and the slice expression `bs[start+1 : endTag]`
panics. -/
theorem UnmarshalEDN_offsets {σ V : Type} (L : Lexer σ)
    (Unmarshal : List Nat → V → V × Option GoError) (t : Tag V) (bs : List Nat)
    (pre rest : List (Step σ)) (htrace : trace L bs = pre ++ rest)
    (hpre : ∀ x ∈ pre, x.ls = lexCont ∨ x.ls = lexIgnore) :
    (∀ k, scanLoop L (pre.length + k) L.reset bs 0 0 =
        ⟨(scanLoop L k (lexAfter L.reset pre) (bs.drop (width pre))
            (ignoredWidth pre) (width pre)).exit,
          runes pre ++ (scanLoop L k (lexAfter L.reset pre) (bs.drop (width pre))
            (ignoredWidth pre) (width pre)).classified⟩) ∧
      ignoredWidth pre ≤ width pre ∧ width pre ≤ bs.length ∧
      bs.take (width pre) = rawBytes pre ∧ (rawBytes pre).length = width pre ∧
      (∀ st post, rest = st :: post → st.ls = lexEndPrev →
        ((∃ x ∈ pre, x.ls = lexCont) →
          ignoredWidth pre + 1 ≤ width pre ∧ width pre ≤ bs.length ∧
            slice bs (ignoredWidth pre + 1) (width pre) =
              some ((bs.take (width pre)).drop (ignoredWidth pre + 1)) ∧
            sliceFrom bs (width pre) = some (bs.drop (width pre)) ∧
            (bs.drop (width pre)).length < bs.length ∧
            (UnmarshalEDN L Unmarshal t bs).decoderCalls = [bs.drop (width pre)]) ∧
        ((¬ ∃ x ∈ pre, x.ls = lexCont) →
          ¬ (ignoredWidth pre + 1 ≤ width pre) ∧
            slice bs (ignoredWidth pre + 1) (width pre) = none ∧
            (UnmarshalEDN L Unmarshal t bs).result = .panicked ∧
            (UnmarshalEDN L Unmarshal t bs).decoderCalls = [])) := by
  have hle := ignoredWidth_le pre
  have hW : width pre ≤ bs.length ∧ rawBytes pre = bs.take (width pre) := by
    obtain ⟨-, -, -, -, hL, hB⟩ := scanLoop_along L pre rest bs.length 0 L.reset bs 0 0 htrace hpre
    exact ⟨hL, hB⟩
  refine ⟨?_, hle, hW.1, hW.2.symm, ?_, ?_⟩
  · intro k
    have h := (scanLoop_along L pre rest bs.length k L.reset bs 0 0 htrace hpre).1
    simpa using h
  · rw [hW.2, List.length_take]
    omega
  · intro st post hrest hst
    subst hrest
    have hsc := scan_reach htrace hpre (by simp [hst])
    simp only [hst] at hsc
    constructor
    · intro hcont
      obtain ⟨-, -, -, -, -, -, hpos⟩ := trace_next htrace hpre
      have hlt := ignoredWidth_lt pre hpos hcont
      have hU := UnmarshalEDN_stop L Unmarshal t htrace hpre hcont hst
      refine ⟨hlt, hW.1, ?_, ?_, ?_, ?_⟩
      · simp [slice, hlt, hW.1]
      · simp [sliceFrom, hW.1]
      · rw [List.length_drop]; omega
      · rw [hU]
    · intro hno
      have hall : ∀ x ∈ pre, x.ls = lexIgnore := by
        intro x hx
        rcases hpre x hx with h | h
        · exact absurd ⟨x, hx, h⟩ hno
        · exact h
      have heq := ignoredWidth_eq_width pre hall
      have hnot : ¬ (ignoredWidth pre + 1 ≤ width pre) := by omega
      have hs : slice bs (ignoredWidth pre + 1) (width pre) = none := by
        simp only [slice]
        rw [if_neg]
        intro hc
        exact hnot hc.1
      refine ⟨hnot, hs, ?_, ?_⟩ <;> simp [UnmarshalEDN, hsc, hs]

/-- C19 at `#foo 42`, where the loop stops with `start = 0` and `endTag = 4`, and
at ` 42`, where it stops with both offsets 0 and the call panics. -/
theorem UnmarshalEDN_offsets_witness :
    (slice (ascii "#foo 42") 1 4 = some (ascii "foo") ∧
        ((ascii "#foo 42").drop 4).length < (ascii "#foo 42").length) ∧
      (slice (ascii " 42") 1 0 = none ∧
        (UnmarshalEDN sampleLexer sampleDecode ⟨ascii "old", 7⟩ (ascii " 42")).result =
          .panicked) :=
  have h1 := (UnmarshalEDN_offsets sampleLexer sampleDecode ⟨ascii "old", 7⟩ (ascii "#foo 42")
    [asciiStep 0x23 lexCont, asciiStep 0x66 lexCont, asciiStep 0x6F lexCont,
      asciiStep 0x6F lexCont]
    [asciiStep 0x20 lexEndPrev, asciiStep 0x34 lexCont, asciiStep 0x32 lexCont]
    (by rfl) (by decide)).2.2.2.2.2 (asciiStep 0x20 lexEndPrev)
      [asciiStep 0x34 lexCont, asciiStep 0x32 lexCont] rfl rfl
  have h2 := (UnmarshalEDN_offsets sampleLexer sampleDecode ⟨ascii "old", 7⟩ (ascii " 42")
    [] [asciiStep 0x20 lexEndPrev, asciiStep 0x34 lexCont, asciiStep 0x32 lexCont]
    (by rfl) (by decide)).2.2.2.2.2 (asciiStep 0x20 lexEndPrev)
      [asciiStep 0x34 lexCont, asciiStep 0x32 lexCont] rfl rfl
  ⟨⟨(h1.1 (by decide)).2.2.1, (h1.1 (by decide)).2.2.2.2.1⟩,
    ⟨(h2.2 (by decide)).2.1, (h2.2 (by decide)).2.2.1⟩⟩

/-- C20: a call whose scan ends with an error returns that error with the receiver
exactly as before and without calling the decoder; this is so when the input
is exhausted, when a code point is classified `lexError` and when one is
classified `lexEnd`. -/
theorem UnmarshalEDN_scan_failure {σ V : Type} (L : Lexer σ)
    (Unmarshal : List Nat → V → V × Option GoError) (t : Tag V) (bs : List Nat) :
    (∀ err, (scan L bs).exit = .failed err →
        UnmarshalEDN L Unmarshal t bs = ⟨.returned t err, (scan L bs).classified, []⟩) ∧
      ((∀ x ∈ trace L bs, x.ls = lexCont ∨ x.ls = lexIgnore) →
        (scan L bs).exit = .failed (some .ioEOF)) ∧
      (∀ pre post st, trace L bs = pre ++ st :: post →
        (∀ x ∈ pre, x.ls = lexCont ∨ x.ls = lexIgnore) →
        (st.ls = lexError → (scan L bs).exit = .failed (L.err st.lex)) ∧
        (st.ls = lexEnd → (scan L bs).exit = .failed (some .errUnexpected))) := by
  refine ⟨?_, ?_, ?_⟩
  · intro err h
    simp [UnmarshalEDN, h]
  · intro hall
    rw [scan_eof hall]
  · intro pre post st htrace hpre
    constructor
    · intro hst
      have hsc := scan_reach htrace hpre (by simp [hst])
      simp only [hst] at hsc
      rw [hsc]
    · intro hst
      have hsc := scan_reach htrace hpre (by simp [hst])
      simp only [hst] at hsc
      rw [hsc]

/-- C20 at `#foo` (input exhausted), `#fo!o 1` (classifier error) and `#fo;o 1`
(unexpected end), with a receiver named `old` holding 7. -/
theorem UnmarshalEDN_scan_failure_witness :
    (UnmarshalEDN sampleLexer sampleDecode ⟨ascii "old", 7⟩ (ascii "#foo")).result =
        .returned ⟨ascii "old", 7⟩ (some .ioEOF) ∧
      (UnmarshalEDN sampleLexer sampleDecode ⟨ascii "old", 7⟩ (ascii "#fo!o 1")).result =
        .returned ⟨ascii "old", 7⟩ (some (.other "illegal rune")) ∧
      (UnmarshalEDN sampleLexer sampleDecode ⟨ascii "old", 7⟩ (ascii "#fo;o 1")).decoderCalls =
        [] :=
  ⟨congrArg Run.result ((UnmarshalEDN_scan_failure sampleLexer sampleDecode ⟨ascii "old", 7⟩
      (ascii "#foo")).1 (some .ioEOF) (by rfl)),
    congrArg Run.result ((UnmarshalEDN_scan_failure sampleLexer sampleDecode ⟨ascii "old", 7⟩
      (ascii "#fo!o 1")).1 (some (.other "illegal rune")) (by rfl)),
    congrArg Run.decoderCalls ((UnmarshalEDN_scan_failure sampleLexer sampleDecode
      ⟨ascii "old", 7⟩ (ascii "#fo;o 1")).1 (some .errUnexpected) (by rfl))⟩

end Edn
